import Mathlib

/-!
Verification of the DAG traversal engine in `pkg/dag/helper.go`.

The embedding models transaction hashes as natural numbers, the transaction
store as a pure resolution function together with the solid-entry-point set
and the approver index, and the caller-supplied callbacks as pure state
transformers over a caller state `σ` that may fail with a caller error `ε`.
Every action of the engine that matters for the specification (store
resolution, handle retain/release, callback invocations, enqueueing) is
recorded in an event trace, so temporal and counting properties can be
stated over the trace of a run.  The Go `for stack.Len() > 0` driver loops
are modelled with explicit fuel; a run that exhausts its fuel returns
`none`.
-/

/-- A transaction node, as read by the engine: its own hash, the two
approvee hashes (trunk and branch), and the tail flag. -/
structure Tx where
  txHash : Nat
  trunk : Nat
  branch : Nat
  isTail : Bool
deriving Repr, DecidableEq

/-- The external store interface consumed by the traversal engine:
`resolve` models `tangle.GetCachedTransactionOrNil`, `isSolidEntryPoint`
models `tangle.SolidEntryPointsContain`, and `approvers` models
`tangle.GetApproverHashes`. -/
structure TxStore where
  resolve : Nat → Option Tx
  isSolidEntryPoint : Nat → Bool
  approvers : Nat → List Nat

/-- Instrumentation events recorded during a traversal run.  `resolveTx`
is a successful store acquisition (tx +1), `retainTx` a `Retain()` call
made to hand a handle to a callback (tx +1), `releaseTx` the engine's
deferred `Release(force)` (tx -1); the remaining events record callback
invocations and queue insertions. -/
inductive Event where
  | resolveTx (h : Nat)
  | retainTx (h : Nat)
  | releaseTx (h : Nat) (force : Bool)
  | condCall (h : Nat) (res : Option Bool)
  | consumeCall (h : Nat)
  | missingCall (h : Nat)
  | sepCall (h : Nat)
  | enqueue (h : Nat)
deriving Repr, DecidableEq

/-- Errors produced by the traversal engine itself, or propagated from the
caller-supplied callbacks (`user`). -/
inductive TravError (ε : Type) where
  | operationAborted
  | transactionNotFound (h : Nat)
  | user (e : ε)
deriving Repr, DecidableEq

/-- Update of a visited map (Go: `visited[hash] = b`). -/
def updMap (m : Nat → Option Bool) (k : Nat) (b : Bool) : Nat → Option Bool :=
  fun x => if x = k then some b else m x

/-- Update of a discovered set (Go: `discovered[hash] = struct{}{}`). -/
def updSet (d : Nat → Bool) (k : Nat) : Nat → Bool :=
  fun x => if x = k then true else d x

/-- The approvee list scanned by `processStackApprovees`: the trunk, and
the branch only when distinct from the trunk. -/
def approveesOf (tx : Tx) : List Nat :=
  if tx.trunk = tx.branch then [tx.trunk] else [tx.trunk, tx.branch]

/-- The callbacks of `TraverseApprovees`, as pure transformers of a caller
state `σ`. -/
structure ApproveeCallbacks (σ ε : Type) where
  condition : σ → Tx → σ × Except ε Bool
  consumer : σ → Tx → σ × Except ε Unit
  onMissingApprovee : σ → Nat → σ × Except ε Unit
  onSolidEntryPoint : σ → Nat → σ

/-- The engine state of one `TraverseApprovees` call: the work stack, the
memoized visited map, the caller state and the instrumentation trace. -/
structure ApproveeState (σ : Type) where
  stack : List Nat
  visited : Nat → Option Bool
  user : σ
  trace : List Event

/-- The `for _, approveeHash := range approveeHashes` loop of
`processStackApprovees`: skips approvees already in the visited map,
pushes the first non-visited non-boundary approvee (returned as the last
component), calls `onSolidEntryPoint` on boundary approvees and either
pushes them (`traverseSEP`) or marks them visited-false and keeps
scanning.  Returns the updated visited map, caller state, the events
emitted, and the hash to push (or `none` when the scan ran through). -/
def scanApprovees {σ : Type} (store : TxStore) (onSEP : σ → Nat → σ) (traverseSEP : Bool) :
    List Nat → (Nat → Option Bool) → σ → ((Nat → Option Bool) × σ × List Event × Option Nat)
  | [], v, u => (v, u, [], none)
  | a :: rest, v, u =>
    match v a with
    | some _ => scanApprovees store onSEP traverseSEP rest v u
    | none =>
      if store.isSolidEntryPoint a then
        if traverseSEP then (v, onSEP u a, [Event.sepCall a], some a)
        else
          match scanApprovees store onSEP traverseSEP rest (updMap v a false) (onSEP u a) with
          | (v2, u2, tr, p) => (v2, u2, Event.sepCall a :: tr, p)
      else (v, u, [], some a)

/-- The part of `processStackApprovees` that runs once the memoized (or
freshly computed) traverse flag of the front element is known: either the
element is dropped (`traverse = false`), or its approvees are scanned and
the element is consumed when none of them needs a push.  Returns the new
stack, visited map, caller state, emitted events (excluding the leading
resolve and trailing release) and the resulting error, if any. -/
def approveesTraverse {σ ε : Type} (store : TxStore) (cb : ApproveeCallbacks σ ε)
    (traverseSEP : Bool) (h : Nat) (rest : List Nat) (tx : Tx) (traverse : Bool)
    (v : Nat → Option Bool) (u : σ) (pre : List Event) :
    List Nat × (Nat → Option Bool) × σ × List Event × Option (TravError ε) :=
  if traverse then
    match scanApprovees store cb.onSolidEntryPoint traverseSEP (approveesOf tx) v u with
    | (v2, u2, sepEvents, some a) => (a :: h :: rest, v2, u2, pre ++ sepEvents, none)
    | (v2, u2, sepEvents, none) =>
      match cb.consumer u2 tx with
      | (u3, Except.ok _) =>
        (rest, v2, u3, pre ++ sepEvents ++ [Event.retainTx h, Event.consumeCall h], none)
      | (u3, Except.error e) =>
        (rest, v2, u3, pre ++ sepEvents ++ [Event.retainTx h, Event.consumeCall h],
          some (TravError.user e))
  else (rest, v, u, pre, none)

/-- The part of `processStackApprovees` that runs after the front element
resolved successfully: memoized-predicate lookup, predicate evaluation and
memoization, then `approveesTraverse`. -/
def approveesResolved {σ ε : Type} (store : TxStore) (cb : ApproveeCallbacks σ ε)
    (traverseSEP : Bool) (h : Nat) (rest : List Nat) (tx : Tx)
    (v : Nat → Option Bool) (u : σ) :
    List Nat × (Nat → Option Bool) × σ × List Event × Option (TravError ε) :=
  match v h with
  | some traverse => approveesTraverse store cb traverseSEP h rest tx traverse v u []
  | none =>
    match cb.condition u tx with
    | (u2, Except.error e) =>
      (h :: rest, v, u2, [Event.retainTx h, Event.condCall h none], some (TravError.user e))
    | (u2, Except.ok traverse) =>
      approveesTraverse store cb traverseSEP h rest tx traverse (updMap v h traverse) u2
        [Event.retainTx h, Event.condCall h (some traverse)]

/-- One step of the approvee traversal, mirroring `processStackApprovees`:
abort check, peek of the stack front, store resolution (missing approvees
are marked do-not-traverse, removed, and reported to `onMissingApprovee`),
then `approveesResolved`; the deferred `Release(forceRelease)` is the last
event of every path that acquired the node. -/
def processStackApprovees {σ ε : Type} (store : TxStore) (cb : ApproveeCallbacks σ ε)
    (forceRelease traverseSEP : Bool) (abort : Bool) (s : ApproveeState σ) :
    ApproveeState σ × Option (TravError ε) :=
  if abort then (s, some TravError.operationAborted)
  else
    match s.stack with
    | [] => (s, none)
    | h :: rest =>
      match store.resolve h with
      | none =>
        match cb.onMissingApprovee s.user h with
        | (u2, Except.ok _) =>
          ({ stack := rest, visited := updMap s.visited h false, user := u2,
             trace := s.trace ++ [Event.missingCall h] }, none)
        | (u2, Except.error e) =>
          ({ stack := rest, visited := updMap s.visited h false, user := u2,
             trace := s.trace ++ [Event.missingCall h] }, some (TravError.user e))
      | some tx =>
        match approveesResolved store cb traverseSEP h rest tx s.visited s.user with
        | (stack2, v2, u2, mid, res) =>
          ({ stack := stack2, visited := v2, user := u2,
             trace := s.trace ++ Event.resolveTx h :: mid ++ [Event.releaseTx h forceRelease] },
            res)

/-- The fresh per-call state of `TraverseApprovees`. -/
def mkInitApprovees {σ : Type} (startTxHash : Nat) (u0 : σ) : ApproveeState σ :=
  { stack := [startTxHash], visited := fun _ => none, user := u0, trace := [] }

/-- The `for stack.Len() > 0` driver loop of `TraverseApprovees`, with
explicit fuel and a step index feeding the abort signal. -/
def runApprovees {σ ε : Type} (store : TxStore) (cb : ApproveeCallbacks σ ε)
    (forceRelease traverseSEP : Bool) (abortSignal : Nat → Bool) :
    Nat → Nat → ApproveeState σ → Option (ApproveeState σ × Option (TravError ε))
  | 0, _, s => if s.stack = [] then some (s, none) else none
  | Nat.succ fuel, i, s =>
    if s.stack = [] then some (s, none)
    else
      match processStackApprovees store cb forceRelease traverseSEP (abortSignal i) s with
      | (s2, some e) => some (s2, some e)
      | (s2, none) => runApprovees store cb forceRelease traverseSEP abortSignal fuel (i + 1) s2

/-- `TraverseApprovees`: DFS into the past cone of `startTxHash`. -/
def TraverseApprovees {σ ε : Type} (store : TxStore) (cb : ApproveeCallbacks σ ε)
    (forceRelease traverseSEP : Bool) (abortSignal : Nat → Bool) (fuel : Nat)
    (startTxHash : Nat) (u0 : σ) : Option (ApproveeState σ × Option (TravError ε)) :=
  runApprovees store cb forceRelease traverseSEP abortSignal fuel 0
    (mkInitApprovees startTxHash u0)

/-- The callbacks of `TraverseApprovers`. -/
structure ApproverCallbacks (σ ε : Type) where
  condition : σ → Tx → σ × Except ε Bool
  consumer : σ → Tx → σ × Except ε Unit

/-- The engine state of one `TraverseApprovers` call: the FIFO work queue,
the discovered set, the caller state and the instrumentation trace. -/
structure ApproverState (σ : Type) where
  queue : List Nat
  discovered : Nat → Bool
  user : σ
  trace : List Event

/-- The `for _, approverHash := range ...` loop of
`processStackApprovers`: appends every approver not yet in the discovered
set to the back of the queue, marking it discovered at enqueue time. -/
def enqueueApprovers : List Nat → List Nat → (Nat → Bool) →
    (List Nat × (Nat → Bool) × List Event)
  | [], q, d => (q, d, [])
  | a :: rest, q, d =>
    if d a then enqueueApprovers rest q d
    else
      match enqueueApprovers rest (q ++ [a]) (updSet d a) with
      | (q2, d2, tr) => (q2, d2, Event.enqueue a :: tr)

/-- The part of `processStackApprovers` that runs once the popped element
resolved: predicate, consumer, then approver enqueueing. -/
def approversResolved {σ ε : Type} (store : TxStore) (cb : ApproverCallbacks σ ε)
    (h : Nat) (rest : List Nat) (tx : Tx) (d : Nat → Bool) (u : σ) :
    List Nat × (Nat → Bool) × σ × List Event × Option (TravError ε) :=
  match cb.condition u tx with
  | (u2, Except.error e) =>
    (rest, d, u2, [Event.retainTx h, Event.condCall h none], some (TravError.user e))
  | (u2, Except.ok false) =>
    (rest, d, u2, [Event.retainTx h, Event.condCall h (some false)], none)
  | (u2, Except.ok true) =>
    match cb.consumer u2 tx with
    | (u3, Except.error e) =>
      (rest, d, u3,
        [Event.retainTx h, Event.condCall h (some true), Event.retainTx h, Event.consumeCall h],
        some (TravError.user e))
    | (u3, Except.ok _) =>
      match enqueueApprovers (store.approvers h) rest d with
      | (q2, d2, enq) =>
        (q2, d2, u3,
          [Event.retainTx h, Event.condCall h (some true), Event.retainTx h,
            Event.consumeCall h] ++ enq, none)

/-- One step of the approver traversal, mirroring `processStackApprovers`:
abort check, pop of the queue front, store resolution (a missing node is a
hard `transactionNotFound` error), then `approversResolved`; the deferred
`Release(forceRelease)` closes every path that acquired the node. -/
def processStackApprovers {σ ε : Type} (store : TxStore) (cb : ApproverCallbacks σ ε)
    (forceRelease : Bool) (abort : Bool) (s : ApproverState σ) :
    ApproverState σ × Option (TravError ε) :=
  if abort then (s, some TravError.operationAborted)
  else
    match s.queue with
    | [] => (s, none)
    | h :: rest =>
      match store.resolve h with
      | none =>
        ({ queue := rest, discovered := s.discovered, user := s.user, trace := s.trace },
          some (TravError.transactionNotFound h))
      | some tx =>
        match approversResolved store cb h rest tx s.discovered s.user with
        | (q2, d2, u2, mid, res) =>
          ({ queue := q2, discovered := d2, user := u2,
             trace := s.trace ++ Event.resolveTx h :: mid ++ [Event.releaseTx h forceRelease] },
            res)

/-- The fresh per-call state of `TraverseApprovers`: the start hash is
seeded into the queue and into the discovered set. -/
def mkInitApprovers {σ : Type} (startTxHash : Nat) (u0 : σ) : ApproverState σ :=
  { queue := [startTxHash], discovered := updSet (fun _ => false) startTxHash, user := u0,
    trace := [Event.enqueue startTxHash] }

/-- The `for stack.Len() > 0` driver loop of `TraverseApprovers`. -/
def runApprovers {σ ε : Type} (store : TxStore) (cb : ApproverCallbacks σ ε)
    (forceRelease : Bool) (abortSignal : Nat → Bool) :
    Nat → Nat → ApproverState σ → Option (ApproverState σ × Option (TravError ε))
  | 0, _, s => if s.queue = [] then some (s, none) else none
  | Nat.succ fuel, i, s =>
    if s.queue = [] then some (s, none)
    else
      match processStackApprovers store cb forceRelease (abortSignal i) s with
      | (s2, some e) => some (s2, some e)
      | (s2, none) => runApprovers store cb forceRelease abortSignal fuel (i + 1) s2

/-- `TraverseApprovers`: unordered BFS into the future cone. -/
def TraverseApprovers {σ ε : Type} (store : TxStore) (cb : ApproverCallbacks σ ε)
    (forceRelease : Bool) (abortSignal : Nat → Bool) (fuel : Nat)
    (startTxHash : Nat) (u0 : σ) : Option (ApproverState σ × Option (TravError ε)) :=
  runApprovers store cb forceRelease abortSignal fuel 0 (mkInitApprovers startTxHash u0)

/-- The error produced by the `onMissingApprovee` callback of
`FindAllTails` (Go: `ErrFindAllTailsFailed` wrapped with the hash). -/
inductive FindTailsError where
  | findAllTailsFailed (h : Nat)
deriving Repr, DecidableEq

/-- The callbacks `FindAllTails` hands to `TraverseApprovees`: the
condition records tails (and stops there) unless the transaction is the
start hash and `skipStartTx` is set, the consumer is a no-op, a missing
approvee is a `findAllTailsFailed` error, and solid entry points are
ignored. -/
def findAllTailsCallbacks (startTxHash : Nat) (skipStartTx : Bool) :
    ApproveeCallbacks (List Nat) FindTailsError :=
  { condition := fun tails tx =>
      if skipStartTx ∧ startTxHash = tx.txHash then (tails, Except.ok true)
      else if tx.isTail then (tails ++ [tx.txHash], Except.ok false)
      else (tails, Except.ok true)
    consumer := fun tails _ => (tails, Except.ok ())
    onMissingApprovee := fun tails h => (tails, Except.error (FindTailsError.findAllTailsFailed h))
    onSolidEntryPoint := fun tails _ => tails }

/-- The underlying traversal run of `FindAllTails`.  Faithful to the Go
source, the `forceRelease` parameter is not forwarded: the literals
`true, false, nil` are passed to `TraverseApprovees` as
(`forceRelease`, `traverseSolidEntryPoints`, `abortSignal`). -/
def FindAllTailsRun (store : TxStore) (fuel : Nat) (startTxHash : Nat)
    (skipStartTx forceRelease : Bool) :
    Option (ApproveeState (List Nat) × Option (TravError FindTailsError)) :=
  TraverseApprovees store (findAllTailsCallbacks startTxHash skipStartTx) true false
    (fun _ => false) fuel startTxHash []

/-- `FindAllTails`: returns the recorded tails together with the error of
the traversal (Go: `return tails, err`). -/
def FindAllTails (store : TxStore) (fuel : Nat) (startTxHash : Nat)
    (skipStartTx forceRelease : Bool) :
    Option (List Nat × Option (TravError FindTailsError)) :=
  match FindAllTailsRun store fuel startTxHash skipStartTx forceRelease with
  | none => none
  | some (st, err) => some (st.user, err)

/-- Number of events in a trace satisfying a predicate. -/
def countP (p : Event → Bool) (tr : List Event) : Nat := (tr.filter p).length

/-- Recognizer for any successful store acquisition. -/
def isResolveEv : Event → Bool
  | Event.resolveTx _ => true
  | _ => false

/-- Recognizer for any `Retain()`. -/
def isRetainEv : Event → Bool
  | Event.retainTx _ => true
  | _ => false

/-- Recognizer for any engine `Release`. -/
def isReleaseEv : Event → Bool
  | Event.releaseTx _ _ => true
  | _ => false

/-- Recognizer for any predicate invocation. -/
def isCondEv : Event → Bool
  | Event.condCall _ _ => true
  | _ => false

/-- Recognizer for any consumer invocation. -/
def isConsumeEv : Event → Bool
  | Event.consumeCall _ => true
  | _ => false

/-- Recognizer for a predicate invocation on a given hash. -/
def isCondCallOf (h : Nat) : Event → Bool
  | Event.condCall h2 _ => if h2 = h then true else false
  | _ => false

/-- Recognizer for an enqueue of a given hash. -/
def isEnqueueOf (h : Nat) : Event → Bool
  | Event.enqueue h2 => if h2 = h then true else false
  | _ => false

/-- Recognizer for an `onSolidEntryPoint` invocation on a given hash. -/
def isSepCallOf (h : Nat) : Event → Bool
  | Event.sepCall h2 => if h2 = h then true else false
  | _ => false

/-- An event that settles the approvee `a` for the purposes of the
finalize-on-pop ordering guarantee: `a` was consumed, reported missing,
excluded by the predicate, or recognized as a solid entry point while
boundary nodes are not traversed. -/
def settlesB (traverseSEP : Bool) (a : Nat) (e : Event) : Bool :=
  match e with
  | Event.consumeCall h => if h = a then true else false
  | Event.missingCall h => if h = a then true else false
  | Event.condCall h r => if h = a ∧ r = some false then true else false
  | Event.sepCall h => if h = a ∧ traverseSEP = false then true else false
  | _ => false

/-- The approvee edge relation of the stored graph: `edge store x y` holds
when the transaction at `x` resolves and references `y` as its trunk or
(distinct) branch. -/
def edge (store : TxStore) (x y : Nat) : Prop :=
  ∃ tx, store.resolve x = some tx ∧ y ∈ approveesOf tx

/-- The stored graph is acyclic: no hash reaches itself through one or
more approvee edges. -/
def Acyclic (store : TxStore) : Prop :=
  ∀ x, ¬ Relation.TransGen (edge store) x x

/-- Invariant shape of the DFS work stack: each element is an approvee of
the element just below it. -/
def StackChain (store : TxStore) : List Nat → Prop
  | [] => True
  | [_] => True
  | x :: y :: rest => edge store y x ∧ StackChain store (y :: rest)

/-- The finalize-on-pop safety property of an approvee trace: whenever the
consumer fires on `h` at position `i`, every approvee of `h` was settled
strictly earlier in the trace. -/
def TraceSafe (store : TxStore) (traverseSEP : Bool) (tr : List Event) : Prop :=
  ∀ i h, tr.get? i = some (Event.consumeCall h) →
    ∀ tx, store.resolve h = some tx → ∀ a ∈ approveesOf tx,
      ∃ e ∈ tr.take i, settlesB traverseSEP a e = true

/-- Trivial instrumented approvee callbacks: include and consume
everything, report nothing. -/
def trivialApproveeCb : ApproveeCallbacks Unit Unit :=
  { condition := fun u _ => (u, Except.ok true)
    consumer := fun u _ => (u, Except.ok ())
    onMissingApprovee := fun u _ => (u, Except.ok ())
    onSolidEntryPoint := fun u _ => u }

/-- Trivial instrumented approver callbacks. -/
def trivialApproverCb : ApproverCallbacks Unit Unit :=
  { condition := fun u _ => (u, Except.ok true)
    consumer := fun u _ => (u, Except.ok ()) }

/-- Chain 2 → 1 → 0 where 0 is a tail (its own approvee 5 is absent but
never visited, because traversal stops at the tail). -/
def chainStore : TxStore :=
  { resolve := fun h =>
      if h = 2 then some ⟨2, 1, 1, false⟩
      else if h = 1 then some ⟨1, 0, 0, false⟩
      else if h = 0 then some ⟨0, 5, 5, true⟩
      else none
    isSolidEntryPoint := fun _ => false
    approvers := fun _ => [] }

/-- A single tail transaction 2 whose approvee 9 is absent. -/
def tailStartStore : TxStore :=
  { resolve := fun h => if h = 2 then some ⟨2, 9, 9, true⟩ else none
    isSolidEntryPoint := fun _ => false
    approvers := fun _ => [] }

/-- Chain 2 → 1 → 0 where both 2 and 0 are tails. -/
def tailChainStore : TxStore :=
  { resolve := fun h =>
      if h = 2 then some ⟨2, 1, 1, true⟩
      else if h = 1 then some ⟨1, 0, 0, false⟩
      else if h = 0 then some ⟨0, 9, 9, true⟩
      else none
    isSolidEntryPoint := fun _ => false
    approvers := fun _ => [] }

/-- Diamond 3 → {2, 1} where both 2 and 1 reference the solid entry
point 0. -/
def diamondSepStore : TxStore :=
  { resolve := fun h =>
      if h = 3 then some ⟨3, 2, 1, false⟩
      else if h = 2 then some ⟨2, 0, 0, false⟩
      else if h = 1 then some ⟨1, 0, 0, false⟩
      else none
    isSolidEntryPoint := fun h => h = 0
    approvers := fun _ => [] }

/-- Node 2 with trunk 1 (a tail) and branch 0 (absent). -/
def partialTailsStore : TxStore :=
  { resolve := fun h =>
      if h = 2 then some ⟨2, 1, 0, false⟩
      else if h = 1 then some ⟨1, 7, 7, true⟩
      else none
    isSolidEntryPoint := fun _ => false
    approvers := fun _ => [] }

/-- Future-cone diamond 0 → {1, 2} → 3: hash 3 is an approver of both 1
and 2. -/
def approverDiamondStore : TxStore :=
  { resolve := fun h => if h ≤ 3 then some ⟨h, 10, 10, false⟩ else none
    isSolidEntryPoint := fun _ => false
    approvers := fun h =>
      if h = 0 then [1, 2] else if h = 1 then [3] else if h = 2 then [3] else [] }

/-- A store with no transactions at all. -/
def emptyStore : TxStore :=
  { resolve := fun _ => none
    isSolidEntryPoint := fun _ => false
    approvers := fun _ => [] }

/-- The concrete approvee run used by the witnesses: the full traversal
of `chainStore` from hash 2. -/
def chainRunApprovees : Option (ApproveeState Unit × Option (TravError Unit)) :=
  TraverseApprovees chainStore trivialApproveeCb true false (fun _ => false) 10 2 ()

/-- The final state of `chainRunApprovees`. -/
def chainStApprovees : ApproveeState Unit :=
  match chainRunApprovees with
  | some (st, _) => st
  | none => mkInitApprovees 2 ()

/-- The concrete approver run used by the witnesses: the full traversal
of `approverDiamondStore` from hash 0. -/
def diamondRunApprovers : Option (ApproverState Unit × Option (TravError Unit)) :=
  TraverseApprovers approverDiamondStore trivialApproverCb true (fun _ => false) 10 0 ()

/-- The final state of `diamondRunApprovers`. -/
def diamondStApprovers : ApproverState Unit :=
  match diamondRunApprovers with
  | some (st, _) => st
  | none => mkInitApprovers 0 ()

/-- Recognizer for an engine release carrying a given eviction flag. -/
def isReleaseForce (b : Bool) : Event → Bool
  | Event.releaseTx _ f => if f = b then true else false
  | _ => false

/-- Recognizer for a successful store acquisition of a given hash. -/
def isResolveOf (h : Nat) : Event → Bool
  | Event.resolveTx h2 => if h2 = h then true else false
  | _ => false

/-- The final state of the tail-finding run on `chainStore` with
`forceRelease := false`. -/
def chainTailsSt : ApproveeState (List Nat) :=
  match FindAllTailsRun chainStore 10 2 false false with
  | some (st, _) => st
  | none => mkInitApprovees 2 []

/-- The final state of the tail-finding run on `tailStartStore`. -/
def tailStartSt : ApproveeState (List Nat) :=
  match FindAllTailsRun tailStartStore 10 2 false false with
  | some (st, _) => st
  | none => mkInitApprovees 2 []

/-- The final state of the tail-finding run on `partialTailsStore`. -/
def partialTailsSt : ApproveeState (List Nat) :=
  match FindAllTailsRun partialTailsStore 10 2 false false with
  | some (st, _) => st
  | none => mkInitApprovees 2 []

/-- The concrete approvee run over the diamond whose two inner nodes both
reference the solid entry point 0. -/
def diamondSepRun : Option (ApproveeState Unit × Option (TravError Unit)) :=
  TraverseApprovees diamondSepStore trivialApproveeCb true false (fun _ => false) 10 3 ()

/-- The final state of `diamondSepRun`. -/
def diamondSepSt : ApproveeState Unit :=
  match diamondSepRun with
  | some (st, _) => st
  | none => mkInitApprovees 3 ()

theorem countP_nil (p : Event → Bool) : countP p [] = 0 := rfl

theorem countP_cons (p : Event → Bool) (e : Event) (tr : List Event) :
    countP p (e :: tr) = countP p tr + (if p e then 1 else 0) := by
  by_cases h : p e <;> simp [countP, List.filter_cons, h]

theorem countP_append (p : Event → Bool) (a b : List Event) :
    countP p (a ++ b) = countP p a + countP p b := by
  simp [countP, List.filter_append]

theorem countP_eq_zero {p : Event → Bool} {tr : List Event}
    (h : ∀ e ∈ tr, p e = false) : countP p tr = 0 := by
  induction tr with
  | nil => rfl
  | cons e tr ih =>
    rw [countP_cons, h e (by simp), if_neg (by simp)]
    exact ih fun x hx => h x (by simp [hx])

theorem countP_pos_of_mem {p : Event → Bool} {tr : List Event} {e : Event}
    (hm : e ∈ tr) (hp : p e = true) : 1 ≤ countP p tr := by
  induction tr with
  | nil => simp at hm
  | cons x tr ih =>
    rw [countP_cons]
    rcases List.mem_cons.mp hm with h | h
    · subst h; rw [hp]; simp
    · have := ih h; omega

/-- Structural facts about one run of the approvee scan loop
(`scanApprovees`): monotonicity of the visited map, characterisation of
its new entries and of the emitted events, uniqueness of boundary
notifications, and the state of the map at the push target respectively
at exhaustion. -/
structure ScanFacts (store : TxStore) (traverseSEP : Bool) (as : List Nat)
    (v v2 : Nat → Option Bool) (tr : List Event) (p : Option Nat) : Prop where
  mono : ∀ x b, v x = some b → v2 x = some b
  newFalse : ∀ x, v2 x ≠ v x →
    v x = none ∧ v2 x = some false ∧ traverseSEP = false ∧ Event.sepCall x ∈ tr
  events : ∀ e ∈ tr, ∃ x, e = Event.sepCall x ∧ store.isSolidEntryPoint x = true ∧ v x = none
  sepOnce : ∀ x, countP (isSepCallOf x) tr ≤ 1
  afterSep : ∀ x, Event.sepCall x ∈ tr → v2 x ≠ none ∨ p = some x
  pushOrigin : ∀ x, p = some x → x ∈ as ∧ v2 x = none
  finished : p = none → ∀ x ∈ as, v2 x ≠ none
  pushSep : ∀ x, p = some x →
    store.isSolidEntryPoint x = false ∨ Event.sepCall x ∈ tr

theorem scanApprovees_facts {σ : Type} (store : TxStore) (f : σ → Nat → σ)
    (traverseSEP : Bool) :
    ∀ (as : List Nat) (v : Nat → Option Bool) (u : σ) v2 u2 tr p,
      scanApprovees store f traverseSEP as v u = (v2, u2, tr, p) →
      ScanFacts store traverseSEP as v v2 tr p := by
  intro as
  induction as with
  | nil =>
    intro v u v2 u2 tr p hs
    simp only [scanApprovees, Prod.mk.injEq] at hs
    obtain ⟨h1, h2, h3, h4⟩ := hs
    subst h1; subst h3; subst h4
    exact ⟨fun x b hb => hb, fun x hx => absurd rfl hx, by simp, fun x => by simp [countP],
      by simp, by simp, fun _ x hx => absurd hx (by simp),
      fun x hx => Option.noConfusion hx⟩
  | cons a rest ih =>
    intro v u v2 u2 tr p hs
    rw [scanApprovees] at hs
    cases hv : v a with
    | some b =>
      rw [hv] at hs
      have F := ih v u v2 u2 tr p hs
      refine ⟨F.mono, F.newFalse, F.events, F.sepOnce, F.afterSep, ?_, ?_, F.pushSep⟩
      · intro x hx
        obtain ⟨hmem, hnone⟩ := F.pushOrigin x hx
        exact ⟨List.mem_cons_of_mem a hmem, hnone⟩
      · intro hp x hx
        rcases List.mem_cons.mp hx with h | h
        · subst h; rw [F.mono x b hv]; simp
        · exact F.finished hp x h
    | none =>
      rw [hv] at hs
      by_cases hsep : store.isSolidEntryPoint a
      · rw [if_pos hsep] at hs
        cases htS : traverseSEP with
        | true =>
          subst htS
          simp only [if_pos, Prod.mk.injEq] at hs
          obtain ⟨h1, h2, h3, h4⟩ := hs
          subst h1; subst h3; subst h4
          refine ⟨fun x b hb => hb, fun x hx => absurd rfl hx, ?_, ?_, ?_, ?_, ?_, ?_⟩
          · intro e he
            rw [List.mem_singleton] at he
            exact ⟨a, he, hsep, hv⟩
          · intro x
            by_cases hax : a = x <;> simp [countP, List.filter_cons, isSepCallOf, hax]
          · intro x hx
            rw [List.mem_singleton, Event.sepCall.injEq] at hx
            subst hx; exact Or.inr rfl
          · intro x hx
            rw [Option.some.injEq] at hx
            subst hx; exact ⟨List.mem_cons_self a rest, hv⟩
          · intro hp; cases hp
          · intro x hx
            rw [Option.some.injEq] at hx
            subst hx; exact Or.inr (List.mem_singleton.mpr rfl)
        | false =>
          subst htS
          simp only [if_neg, Bool.false_eq_true, not_false_iff] at hs
          rcases hrec : scanApprovees store f false rest (updMap v a false) (f u a) with
            ⟨v3, u3, tr3, p3⟩
          rw [hrec] at hs
          simp only [Prod.mk.injEq] at hs
          obtain ⟨h1, h2, h3, h4⟩ := hs
          subst h1; subst h3; subst h4
          have F := ih (updMap v a false) (f u a) v3 u3 tr3 p3 hrec
          have hva2 : v3 a = some false := F.mono a false (by simp [updMap])
          refine ⟨?_, ?_, ?_, ?_, ?_, ?_, ?_, ?_⟩
          · intro x b hb
            have hxa : x ≠ a := fun hxa => by rw [hxa, hv] at hb; cases hb
            exact F.mono x b (by simp [updMap, hxa, hb])
          · intro x hx
            by_cases hxa : x = a
            · subst hxa
              exact ⟨hv, hva2, rfl, List.mem_cons_self _ _⟩
            · have hx2 : v3 x ≠ updMap v a false x := by
                simpa [updMap, hxa] using hx
              obtain ⟨e1, e2, e3, e4⟩ := F.newFalse x hx2
              rw [updMap] at e1
              simp only [if_neg hxa] at e1
              exact ⟨e1, e2, e3, List.mem_cons_of_mem _ e4⟩
          · intro e he
            rcases List.mem_cons.mp he with h | h
            · exact ⟨a, h, hsep, hv⟩
            · obtain ⟨x, hx1, hx2, hx3⟩ := F.events e h
              have hxa : x ≠ a := by
                intro hxa; rw [hxa] at hx3; simp [updMap] at hx3
              rw [updMap, if_neg hxa] at hx3
              exact ⟨x, hx1, hx2, hx3⟩
          · intro x
            rw [countP_cons]
            by_cases hxa : x = a
            · subst hxa
              have hz : countP (isSepCallOf x) tr3 = 0 := by
                apply countP_eq_zero
                intro e he
                obtain ⟨y, hy1, hy2, hy3⟩ := F.events e he
                subst hy1
                have hya : y ≠ x := by
                  intro hyx; rw [hyx] at hy3; simp [updMap] at hy3
                simp [isSepCallOf, hya]
              rw [hz]; simp [isSepCallOf]
            · have hax : ¬(a = x) := fun hh => hxa hh.symm
              have hz : (if isSepCallOf x (Event.sepCall a) = true then 1 else 0) = 0 := by
                simp [isSepCallOf, hax]
              rw [hz]
              have := F.sepOnce x
              omega
          · intro x hx
            rcases List.mem_cons.mp hx with h | h
            · rw [Event.sepCall.injEq] at h
              subst h; exact Or.inl (by rw [hva2]; simp)
            · exact F.afterSep x h
          · intro x hx
            obtain ⟨hmem, hnone⟩ := F.pushOrigin x hx
            exact ⟨List.mem_cons_of_mem a hmem, hnone⟩
          · intro hp x hx
            rcases List.mem_cons.mp hx with h | h
            · subst h; rw [hva2]; simp
            · exact F.finished hp x h
          · intro x hx
            rcases F.pushSep x hx with hL | hR
            · exact Or.inl hL
            · exact Or.inr (List.mem_cons_of_mem _ hR)
      · rw [if_neg hsep] at hs
        simp only [Prod.mk.injEq] at hs
        obtain ⟨h1, h2, h3, h4⟩ := hs
        subst h1; subst h3; subst h4
        refine ⟨fun x b hb => hb, fun x hx => absurd rfl hx, by simp, fun x => by simp [countP],
          by simp, ?_, ?_, ?_⟩
        · intro x hx
          rw [Option.some.injEq] at hx
          subst hx; exact ⟨List.mem_cons_self a rest, hv⟩
        · intro hp; cases hp
        · intro x hx
          rw [Option.some.injEq] at hx
          subst hx; exact Or.inl (by simpa using hsep)

/-- Structural facts about one run of the approver enqueue loop
(`enqueueApprovers`): the discovered set only grows, every emitted
enqueue targets a hash that was not yet discovered and is discovered
afterwards, and no hash is enqueued twice. -/
structure EnqFacts (d d2 : Nat → Bool) (tr : List Event) : Prop where
  dmono : ∀ x, d x = true → d2 x = true
  events : ∀ e ∈ tr, ∃ x, e = Event.enqueue x ∧ d x = false ∧ d2 x = true
  enqOnce : ∀ x, countP (isEnqueueOf x) tr ≤ 1

theorem enqueueApprovers_facts :
    ∀ (as : List Nat) (q : List Nat) (d : Nat → Bool) q2 d2 tr,
      enqueueApprovers as q d = (q2, d2, tr) → EnqFacts d d2 tr := by
  intro as
  induction as with
  | nil =>
    intro q d q2 d2 tr hs
    simp only [enqueueApprovers, Prod.mk.injEq] at hs
    obtain ⟨h1, h2, h3⟩ := hs
    subst h2; subst h3
    exact ⟨fun x hx => hx, by simp, fun x => by simp [countP]⟩
  | cons a rest ih =>
    intro q d q2 d2 tr hs
    rw [enqueueApprovers] at hs
    by_cases hd : d a
    · rw [if_pos hd] at hs
      exact ih q d q2 d2 tr hs
    · rw [if_neg hd] at hs
      rcases hrec : enqueueApprovers rest (q ++ [a]) (updSet d a) with ⟨q3, d3, tr3⟩
      rw [hrec] at hs
      simp only [Prod.mk.injEq] at hs
      obtain ⟨h1, h2, h3⟩ := hs
      subst h1; subst h2; subst h3
      have F := ih (q ++ [a]) (updSet d a) q3 d3 tr3 hrec
      have hda : d3 a = true := F.dmono a (by simp [updSet])
      refine ⟨?_, ?_, ?_⟩
      · intro x hx
        exact F.dmono x (by simp [updSet, hx])
      · intro e he
        rcases List.mem_cons.mp he with h | h
        · exact ⟨a, h, by simpa using hd, hda⟩
        · obtain ⟨x, hx1, hx2, hx3⟩ := F.events e h
          have hxa : x ≠ a := by
            intro hxa; rw [hxa] at hx2; simp [updSet] at hx2
          rw [updSet] at hx2
          simp only [if_neg hxa] at hx2
          exact ⟨x, hx1, hx2, hx3⟩
      · intro x
        rw [countP_cons]
        by_cases hxa : x = a
        · subst hxa
          have hz : countP (isEnqueueOf x) tr3 = 0 := by
            apply countP_eq_zero
            intro e he
            obtain ⟨y, hy1, hy2, hy3⟩ := F.events e he
            subst hy1
            have hya : y ≠ x := by
              intro hyx; rw [hyx] at hy2; simp [updSet] at hy2
            simp [isEnqueueOf, hya]
          rw [hz]; simp [isEnqueueOf]
        · have hax : ¬(a = x) := fun hh => hxa hh.symm
          have hz : (if isEnqueueOf x (Event.enqueue a) = true then 1 else 0) = 0 := by
            simp [isEnqueueOf, hax]
          rw [hz]
          have := F.enqOnce x
          omega

/-- Exhaustive characterisation of the code paths of `approveesTraverse`. -/
theorem approveesTraverse_cases {σ ε : Type} (store : TxStore) (cb : ApproveeCallbacks σ ε)
    (tSEP : Bool) (h : Nat) (rest : List Nat) (tx : Tx) (traverse : Bool)
    (v : Nat → Option Bool) (u : σ) (pre : List Event)
    (stack2 : List Nat) (v2 : Nat → Option Bool) (u2 : σ) (mid : List Event)
    (res : Option (TravError ε))
    (ht : approveesTraverse store cb tSEP h rest tx traverse v u pre =
      (stack2, v2, u2, mid, res)) :
    (traverse = false ∧ stack2 = rest ∧ v2 = v ∧ u2 = u ∧ mid = pre ∧ res = none) ∨
    (∃ sepEv a, traverse = true ∧
      scanApprovees store cb.onSolidEntryPoint tSEP (approveesOf tx) v u =
        (v2, u2, sepEv, some a) ∧
      stack2 = a :: h :: rest ∧ mid = pre ++ sepEv ∧ res = none) ∨
    (∃ sepEv u3 r, traverse = true ∧
      scanApprovees store cb.onSolidEntryPoint tSEP (approveesOf tx) v u =
        (v2, u3, sepEv, none) ∧
      cb.consumer u3 tx = (u2, r) ∧ stack2 = rest ∧
      mid = pre ++ sepEv ++ [Event.retainTx h, Event.consumeCall h] ∧
      ((∃ e, r = Except.error e ∧ res = some (TravError.user e)) ∨
        (r = Except.ok () ∧ res = none))) := by
  unfold approveesTraverse at ht
  split at ht
  · next htr =>
    split at ht
    · next vs us sepEv a heq =>
      right; left
      simp only [Prod.mk.injEq] at ht
      obtain ⟨h1, h2, h3, h4, h5⟩ := ht
      subst h1; subst h2; subst h3; subst h4; subst h5
      exact ⟨sepEv, a, by simpa using htr, heq, rfl, rfl, rfl⟩
    · next vs us sepEv heq =>
      right; right
      split at ht
      · next u3 heq2 =>
        simp only [Prod.mk.injEq] at ht
        obtain ⟨h1, h2, h3, h4, h5⟩ := ht
        subst h1; subst h2; subst h3; subst h4; subst h5
        exact ⟨sepEv, us, Except.ok (), by simpa using htr, heq, heq2, rfl, rfl,
          Or.inr ⟨rfl, rfl⟩⟩
      · next u3 e heq2 =>
        simp only [Prod.mk.injEq] at ht
        obtain ⟨h1, h2, h3, h4, h5⟩ := ht
        subst h1; subst h2; subst h3; subst h4; subst h5
        exact ⟨sepEv, us, Except.error e, by simpa using htr, heq, heq2, rfl, rfl,
          Or.inl ⟨e, rfl, rfl⟩⟩
  · next htr =>
    left
    simp only [Prod.mk.injEq] at ht
    obtain ⟨h1, h2, h3, h4, h5⟩ := ht
    subst h1; subst h2; subst h3; subst h4; subst h5
    exact ⟨by simpa using htr, rfl, rfl, rfl, rfl, rfl⟩

/-- Exhaustive characterisation of the code paths of `approveesResolved`. -/
theorem approveesResolved_cases {σ ε : Type} (store : TxStore) (cb : ApproveeCallbacks σ ε)
    (tSEP : Bool) (h : Nat) (rest : List Nat) (tx : Tx)
    (v : Nat → Option Bool) (u : σ)
    (stack2 : List Nat) (v2 : Nat → Option Bool) (u2 : σ) (mid : List Event)
    (res : Option (TravError ε))
    (hr : approveesResolved store cb tSEP h rest tx v u = (stack2, v2, u2, mid, res)) :
    (∃ u3 e, v h = none ∧ cb.condition u tx = (u3, Except.error e) ∧
      stack2 = h :: rest ∧ v2 = v ∧ u2 = u3 ∧
      mid = [Event.retainTx h, Event.condCall h none] ∧ res = some (TravError.user e)) ∨
    (∃ traverse u3, v h = none ∧ cb.condition u tx = (u3, Except.ok traverse) ∧
      approveesTraverse store cb tSEP h rest tx traverse (updMap v h traverse) u3
        [Event.retainTx h, Event.condCall h (some traverse)] = (stack2, v2, u2, mid, res)) ∨
    (∃ traverse, v h = some traverse ∧
      approveesTraverse store cb tSEP h rest tx traverse v u [] =
        (stack2, v2, u2, mid, res)) := by
  unfold approveesResolved at hr
  split at hr
  · next traverse heq =>
    exact Or.inr (Or.inr ⟨traverse, heq, hr⟩)
  · next heq =>
    split at hr
    · next u3 e heq2 =>
      left
      simp only [Prod.mk.injEq] at hr
      obtain ⟨h1, h2, h3, h4, h5⟩ := hr
      subst h1; subst h2; subst h3; subst h4; subst h5
      exact ⟨u3, e, heq, heq2, rfl, rfl, rfl, rfl, rfl⟩
    · next u3 traverse heq2 =>
      exact Or.inr (Or.inl ⟨traverse, u3, heq, heq2, hr⟩)

/-- Exhaustive characterisation of the code paths of
`processStackApprovees`. -/
theorem processStackApprovees_cases {σ ε : Type} (store : TxStore)
    (cb : ApproveeCallbacks σ ε) (fR tSEP ab : Bool) (s s2 : ApproveeState σ)
    (res : Option (TravError ε))
    (hstep : processStackApprovees store cb fR tSEP ab s = (s2, res)) :
    (ab = true ∧ s2 = s ∧ res = some TravError.operationAborted) ∨
    (ab = false ∧ s.stack = [] ∧ s2 = s ∧ res = none) ∨
    (∃ h rest u2 r, ab = false ∧ s.stack = h :: rest ∧ store.resolve h = none ∧
      cb.onMissingApprovee s.user h = (u2, r) ∧
      s2 = { stack := rest, visited := updMap s.visited h false, user := u2,
             trace := s.trace ++ [Event.missingCall h] } ∧
      ((∃ e, r = Except.error e ∧ res = some (TravError.user e)) ∨
        (r = Except.ok () ∧ res = none))) ∨
    (∃ h rest tx stack2 v2 u2 mid, ab = false ∧ s.stack = h :: rest ∧
      store.resolve h = some tx ∧
      approveesResolved store cb tSEP h rest tx s.visited s.user =
        (stack2, v2, u2, mid, res) ∧
      s2 = { stack := stack2, visited := v2, user := u2,
             trace := s.trace ++ Event.resolveTx h :: mid ++ [Event.releaseTx h fR] }) := by
  unfold processStackApprovees at hstep
  split at hstep
  · next hab =>
    left
    simp only [Prod.mk.injEq] at hstep
    obtain ⟨h1, h2⟩ := hstep
    exact ⟨by simpa using hab, h1.symm, h2.symm⟩
  · next hab =>
    split at hstep
    · next hstack =>
      right; left
      simp only [Prod.mk.injEq] at hstep
      obtain ⟨h1, h2⟩ := hstep
      exact ⟨by simpa using hab, hstack, h1.symm, h2.symm⟩
    · next h rest hstack =>
      split at hstep
      · next hres =>
        split at hstep
        · next u2 uu heq =>
          right; right; left
          simp only [Prod.mk.injEq] at hstep
          obtain ⟨h1, h2⟩ := hstep
          exact ⟨h, rest, u2, Except.ok uu, by simpa using hab, hstack, hres, heq, h1.symm,
            Or.inr ⟨rfl, h2.symm⟩⟩
        · next u2 e heq =>
          right; right; left
          simp only [Prod.mk.injEq] at hstep
          obtain ⟨h1, h2⟩ := hstep
          exact ⟨h, rest, u2, Except.error e, by simpa using hab, hstack, hres, heq, h1.symm,
            Or.inl ⟨e, rfl, h2.symm⟩⟩
      · next tx hres =>
        split at hstep
        · next stack2 v2 u2 mid res2 heq =>
          right; right; right
          simp only [Prod.mk.injEq] at hstep
          obtain ⟨h1, h2⟩ := hstep
          subst h2
          exact ⟨h, rest, tx, stack2, v2, u2, mid, by simpa using hab, hstack, hres, heq,
            h1.symm⟩

/-- Exhaustive characterisation of the code paths of `approversResolved`. -/
theorem approversResolved_cases {σ ε : Type} (store : TxStore) (cb : ApproverCallbacks σ ε)
    (h : Nat) (rest : List Nat) (tx : Tx) (d : Nat → Bool) (u : σ)
    (q2 : List Nat) (d2 : Nat → Bool) (u2 : σ) (mid : List Event)
    (res : Option (TravError ε))
    (hr : approversResolved store cb h rest tx d u = (q2, d2, u2, mid, res)) :
    (∃ u3 e, cb.condition u tx = (u3, Except.error e) ∧ q2 = rest ∧ d2 = d ∧ u2 = u3 ∧
      mid = [Event.retainTx h, Event.condCall h none] ∧ res = some (TravError.user e)) ∨
    (∃ u3, cb.condition u tx = (u3, Except.ok false) ∧ q2 = rest ∧ d2 = d ∧ u2 = u3 ∧
      mid = [Event.retainTx h, Event.condCall h (some false)] ∧ res = none) ∨
    (∃ u3 u4 e, cb.condition u tx = (u3, Except.ok true) ∧
      cb.consumer u3 tx = (u4, Except.error e) ∧
      q2 = rest ∧ d2 = d ∧ u2 = u4 ∧
      mid = [Event.retainTx h, Event.condCall h (some true), Event.retainTx h,
        Event.consumeCall h] ∧ res = some (TravError.user e)) ∨
    (∃ u3 u4 enq, cb.condition u tx = (u3, Except.ok true) ∧
      cb.consumer u3 tx = (u4, Except.ok ()) ∧
      enqueueApprovers (store.approvers h) rest d = (q2, d2, enq) ∧ u2 = u4 ∧
      mid = [Event.retainTx h, Event.condCall h (some true), Event.retainTx h,
        Event.consumeCall h] ++ enq ∧ res = none) := by
  unfold approversResolved at hr
  split at hr
  · next u3 e heq =>
    left
    simp only [Prod.mk.injEq] at hr
    obtain ⟨h1, h2, h3, h4, h5⟩ := hr
    subst h1; subst h2; subst h3; subst h4; subst h5
    exact ⟨u3, e, heq, rfl, rfl, rfl, rfl, rfl⟩
  · next u3 heq =>
    right; left
    simp only [Prod.mk.injEq] at hr
    obtain ⟨h1, h2, h3, h4, h5⟩ := hr
    subst h1; subst h2; subst h3; subst h4; subst h5
    exact ⟨u3, heq, rfl, rfl, rfl, rfl, rfl⟩
  · next u3 heq =>
    split at hr
    · next u4 e heq2 =>
      right; right; left
      simp only [Prod.mk.injEq] at hr
      obtain ⟨h1, h2, h3, h4, h5⟩ := hr
      subst h1; subst h2; subst h3; subst h4; subst h5
      exact ⟨u3, u4, e, heq, heq2, rfl, rfl, rfl, rfl, rfl⟩
    · next u4 uu heq2 =>
      split at hr
      · next q3 d3 enq heq3 =>
        right; right; right
        simp only [Prod.mk.injEq] at hr
        obtain ⟨h1, h2, h3, h4, h5⟩ := hr
        subst h1; subst h2; subst h3; subst h4; subst h5
        exact ⟨u3, u4, enq, heq, heq2, heq3, rfl, rfl, rfl⟩

/-- Exhaustive characterisation of the code paths of
`processStackApprovers`. -/
theorem processStackApprovers_cases {σ ε : Type} (store : TxStore)
    (cb : ApproverCallbacks σ ε) (fR ab : Bool) (s s2 : ApproverState σ)
    (res : Option (TravError ε))
    (hstep : processStackApprovers store cb fR ab s = (s2, res)) :
    (ab = true ∧ s2 = s ∧ res = some TravError.operationAborted) ∨
    (ab = false ∧ s.queue = [] ∧ s2 = s ∧ res = none) ∨
    (∃ h rest, ab = false ∧ s.queue = h :: rest ∧ store.resolve h = none ∧
      s2 = { queue := rest, discovered := s.discovered, user := s.user, trace := s.trace } ∧
      res = some (TravError.transactionNotFound h)) ∨
    (∃ h rest tx q2 d2 u2 mid, ab = false ∧ s.queue = h :: rest ∧
      store.resolve h = some tx ∧
      approversResolved store cb h rest tx s.discovered s.user = (q2, d2, u2, mid, res) ∧
      s2 = { queue := q2, discovered := d2, user := u2,
             trace := s.trace ++ Event.resolveTx h :: mid ++ [Event.releaseTx h fR] }) := by
  unfold processStackApprovers at hstep
  split at hstep
  · next hab =>
    left
    simp only [Prod.mk.injEq] at hstep
    obtain ⟨h1, h2⟩ := hstep
    exact ⟨by simpa using hab, h1.symm, h2.symm⟩
  · next hab =>
    split at hstep
    · next hq =>
      right; left
      simp only [Prod.mk.injEq] at hstep
      obtain ⟨h1, h2⟩ := hstep
      exact ⟨by simpa using hab, hq, h1.symm, h2.symm⟩
    · next h rest hq =>
      split at hstep
      · next hres =>
        right; right; left
        simp only [Prod.mk.injEq] at hstep
        obtain ⟨h1, h2⟩ := hstep
        exact ⟨h, rest, by simpa using hab, hq, hres, h1.symm, h2.symm⟩
      · next tx hres =>
        split at hstep
        · next q2 d2 u2 mid res2 heq =>
          right; right; right
          simp only [Prod.mk.injEq] at hstep
          obtain ⟨h1, h2⟩ := hstep
          subst h2
          exact ⟨h, rest, tx, q2, d2, u2, mid, by simpa using hab, hq, hres, heq, h1.symm⟩

theorem countP_singleton (p : Event → Bool) (e : Event) :
    countP p [e] = if p e then 1 else 0 := by
  by_cases h : p e <;> simp [countP, List.filter_cons, h]

/-- Counting events across one resolved step: the leading `resolveTx` and
trailing `releaseTx` do not match `p`, so only the middle part counts. -/
theorem countP_step_trace (p : Event → Bool) (tr mid : List Event) (h : Nat) (fR : Bool)
    (hp1 : p (Event.resolveTx h) = false) (hp2 : p (Event.releaseTx h fR) = false) :
    countP p (tr ++ Event.resolveTx h :: mid ++ [Event.releaseTx h fR]) =
      countP p tr + countP p mid := by
  rw [countP_append, countP_append, countP_cons, countP_cons, hp1, hp2, countP_nil]
  simp

theorem none_of_mono {v v2 : Nat → Option Bool}
    (mono : ∀ y b, v y = some b → v2 y = some b) :
    ∀ y, v2 y = none → v y = none := by
  intro y hy
  cases hvy : v y with
  | none => rfl
  | some b => rw [mono y b hvy] at hy; cases hy

/-- `approveesTraverse` adds no predicate invocations beyond its `pre`
prefix, and only extends the visited map. -/
theorem approveesTraverse_condFacts {σ ε : Type} {store : TxStore}
    {cb : ApproveeCallbacks σ ε} {tSEP : Bool} {h : Nat} {rest : List Nat} {tx : Tx}
    {traverse : Bool} {v : Nat → Option Bool} {u : σ} {pre : List Event}
    {stack2 : List Nat} {v2 : Nat → Option Bool} {u2 : σ} {mid : List Event}
    {res : Option (TravError ε)}
    (ht : approveesTraverse store cb tSEP h rest tx traverse v u pre =
      (stack2, v2, u2, mid, res)) :
    (∀ x, countP (isCondCallOf x) mid = countP (isCondCallOf x) pre) ∧
    (∀ y b, v y = some b → v2 y = some b) ∧
    (∀ y, v2 y = none → v y = none) := by
  rcases approveesTraverse_cases _ _ _ _ _ _ _ _ _ _ _ _ _ _ _ ht with
    ⟨-, rfl, rfl, rfl, rfl, -⟩ | ⟨sepEv, a, -, hscan, rfl, rfl, -⟩ |
    ⟨sepEv, u3, r, -, hscan, -, rfl, rfl, -⟩
  · exact ⟨fun x => rfl, fun y b hb => hb, fun y hy => hy⟩
  · have F := scanApprovees_facts store cb.onSolidEntryPoint tSEP (approveesOf tx)
      v u v2 u2 sepEv (some a) hscan
    have hz : ∀ x, countP (isCondCallOf x) sepEv = 0 := by
      intro x
      apply countP_eq_zero
      intro e he
      obtain ⟨y, hy, -, -⟩ := F.events e he
      subst hy; rfl
    refine ⟨fun x => by rw [countP_append, hz]; simp, F.mono, none_of_mono F.mono⟩
  · have F := scanApprovees_facts store cb.onSolidEntryPoint tSEP (approveesOf tx)
      v u v2 u3 sepEv none hscan
    have hz : ∀ x, countP (isCondCallOf x) sepEv = 0 := by
      intro x
      apply countP_eq_zero
      intro e he
      obtain ⟨y, hy, -, -⟩ := F.events e he
      subst hy; rfl
    refine ⟨fun x => ?_, F.mono, none_of_mono F.mono⟩
    rw [countP_append, countP_append, hz]
    simp [countP, List.filter_cons, isCondCallOf]

/-- One resolved approvee step invokes the predicate exactly on its own
hash when that hash was not yet memoized, never touches other hashes,
erases no visited entries, and leaves its own hash memoized unless it
returned an error. -/
theorem approveesResolved_condFacts {σ ε : Type} {store : TxStore}
    {cb : ApproveeCallbacks σ ε} {tSEP : Bool} {h : Nat} {rest : List Nat} {tx : Tx}
    {v : Nat → Option Bool} {u : σ} {stack2 : List Nat} {v2 : Nat → Option Bool} {u2 : σ}
    {mid : List Event} {res : Option (TravError ε)}
    (hr : approveesResolved store cb tSEP h rest tx v u = (stack2, v2, u2, mid, res)) :
    (∀ x, countP (isCondCallOf x) mid = if x = h ∧ v h = none then 1 else 0) ∧
    (∀ y, v2 y = none → v y = none) ∧
    (res = none → v2 h ≠ none) := by
  rcases approveesResolved_cases _ _ _ _ _ _ _ _ _ _ _ _ _ hr with
    ⟨u3, e, hvh, hcond, -, rfl, rfl, rfl, rfl⟩ |
    ⟨traverse, u3, hvh, hcond, htrav⟩ |
    ⟨traverse, hvh, htrav⟩
  · refine ⟨?_, fun y hy => hy, ?_⟩
    · intro x
      by_cases hx : x = h
      · subst hx
        simp [countP, List.filter_cons, isCondCallOf, hvh]
      · have hhx : ¬(h = x) := fun hh => hx hh.symm
        simp [countP, List.filter_cons, isCondCallOf, hhx, hx]
    · intro hc; cases hc
  · obtain ⟨hcount, hmono, hnone⟩ := approveesTraverse_condFacts htrav
    refine ⟨?_, ?_, ?_⟩
    · intro x
      rw [hcount x]
      by_cases hx : x = h
      · subst hx
        simp [countP, List.filter_cons, isCondCallOf, hvh]
      · have hhx : ¬(h = x) := fun hh => hx hh.symm
        simp [countP, List.filter_cons, isCondCallOf, hhx, hx]
    · intro y hy
      have := hnone y hy
      by_cases hyh : y = h
      · subst hyh; exact absurd this (by simp [updMap])
      · rw [updMap] at this
        simpa [hyh] using this
    · intro _
      have hv2h : v2 h = some traverse := hmono h traverse (by simp [updMap])
      rw [hv2h]; simp
  · obtain ⟨hcount, hmono, hnone⟩ := approveesTraverse_condFacts htrav
    refine ⟨?_, hnone, ?_⟩
    · intro x
      rw [hcount x, countP_nil]
      simp [hvh]
    · intro _
      have hv2h : v2 h = some traverse := hmono h traverse hvh
      rw [hv2h]; simp

/-- Per-identifier predicate-memoization invariant of the approvee
traversal: the trace holds at most one predicate invocation per hash, and
none yet for hashes absent from the visited map. -/
def CondOnce {σ : Type} (s : ApproveeState σ) : Prop :=
  ∀ h, countP (isCondCallOf h) s.trace ≤ 1 ∧
    (s.visited h = none → countP (isCondCallOf h) s.trace = 0)

theorem processStackApprovees_condOnce {σ ε : Type} {store : TxStore}
    {cb : ApproveeCallbacks σ ε} {fR tSEP ab : Bool} {s s2 : ApproveeState σ}
    {res : Option (TravError ε)} (hInv : CondOnce s)
    (hstep : processStackApprovees store cb fR tSEP ab s = (s2, res)) :
    (∀ h, countP (isCondCallOf h) s2.trace ≤ 1) ∧ (res = none → CondOnce s2) := by
  rcases processStackApprovees_cases store cb fR tSEP ab s s2 res hstep with
    ⟨-, rfl, -⟩ | ⟨-, -, rfl, -⟩ |
    ⟨h, rest, u2, r, -, -, -, -, rfl, -⟩ |
    ⟨h, rest, tx, stack2, v2, u2, mid, -, -, -, hres, rfl⟩
  · exact ⟨fun x => (hInv x).1, fun _ => hInv⟩
  · exact ⟨fun x => (hInv x).1, fun _ => hInv⟩
  · have htr : ∀ x, countP (isCondCallOf x)
        (s.trace ++ [Event.missingCall h]) = countP (isCondCallOf x) s.trace := by
      intro x
      rw [countP_append, countP_singleton]
      simp [isCondCallOf]
    constructor
    · intro x
      simpa [htr x] using (hInv x).1
    · intro _ x
      have hv : updMap s.visited h false x = none → s.visited x = none := by
        intro hx
        by_cases hxh : x = h
        · subst hxh; exact absurd hx (by simp [updMap])
        · rw [updMap] at hx; simpa [hxh] using hx
      exact ⟨by simpa [htr x] using (hInv x).1,
        fun hx => by rw [htr x]; exact (hInv x).2 (hv hx)⟩
  · obtain ⟨hcount, hnoneRev, hset⟩ := approveesResolved_condFacts hres
    have htr : ∀ x, countP (isCondCallOf x)
        (s.trace ++ Event.resolveTx h :: mid ++ [Event.releaseTx h fR]) =
        countP (isCondCallOf x) s.trace + countP (isCondCallOf x) mid := by
      intro x
      exact countP_step_trace _ _ _ _ _ rfl rfl
    constructor
    · intro x
      rw [htr x, hcount x]
      by_cases hc : x = h ∧ s.visited h = none
      · rw [if_pos hc]
        have h0 : countP (isCondCallOf x) s.trace = 0 := (hInv x).2 (hc.1 ▸ hc.2)
        omega
      · rw [if_neg hc]
        have := (hInv x).1
        omega
    · intro hresnone x
      constructor
      · rw [htr x, hcount x]
        by_cases hc : x = h ∧ s.visited h = none
        · rw [if_pos hc]
          have h0 : countP (isCondCallOf x) s.trace = 0 := (hInv x).2 (hc.1 ▸ hc.2)
          omega
        · rw [if_neg hc]
          have := (hInv x).1
          omega
      · intro hx
        have hxs : s.visited x = none := hnoneRev x hx
        have h0 : countP (isCondCallOf x) s.trace = 0 := (hInv x).2 hxs
        have hxh : ¬(x = h ∧ s.visited h = none) := by
          rintro ⟨rfl, -⟩
          exact hset hresnone hx
        rw [htr x, hcount x, if_neg hxh, h0]

theorem runApprovees_condOnce {σ ε : Type} {store : TxStore} {cb : ApproveeCallbacks σ ε}
    {fR tSEP : Bool} {sig : Nat → Bool} :
    ∀ (fuel i : Nat) (s : ApproveeState σ) (st : ApproveeState σ)
      (res : Option (TravError ε)),
      CondOnce s →
      runApprovees store cb fR tSEP sig fuel i s = some (st, res) →
      ∀ h, countP (isCondCallOf h) st.trace ≤ 1 := by
  intro fuel
  induction fuel with
  | zero =>
    intro i s st res hInv hrun
    rw [runApprovees] at hrun
    split at hrun
    · simp only [Option.some.injEq, Prod.mk.injEq] at hrun
      obtain ⟨rfl, -⟩ := hrun
      exact fun h => (hInv h).1
    · cases hrun
  | succ fuel ih =>
    intro i s st res hInv hrun
    rw [runApprovees] at hrun
    split at hrun
    · simp only [Option.some.injEq, Prod.mk.injEq] at hrun
      obtain ⟨rfl, -⟩ := hrun
      exact fun h => (hInv h).1
    · rcases hstep : processStackApprovees store cb fR tSEP (sig i) s with ⟨s2, res2⟩
      rw [hstep] at hrun
      obtain ⟨hbound, hpres⟩ := processStackApprovees_condOnce hInv hstep
      cases res2 with
      | some e =>
        simp only [Option.some.injEq, Prod.mk.injEq] at hrun
        obtain ⟨rfl, -⟩ := hrun
        exact hbound
      | none => exact ih (i + 1) s2 st res (hpres rfl) hrun

/-- Claim C2: during a single `TraverseApprovees` call the caller-supplied
predicate (`condition`) is invoked at most once per identifier — its
boolean result is memoized in the per-call visited map and later
encounters of the identifier reuse the memoized value instead of invoking
the predicate again, so the trace of any run (error or not) holds at most
one `condCall` event per hash. -/
theorem traverseApprovees_condition_once {σ ε : Type} {store : TxStore}
    {cb : ApproveeCallbacks σ ε} {fR tSEP : Bool} {sig : Nat → Bool} {fuel start : Nat}
    {u0 : σ} {st : ApproveeState σ} {res : Option (TravError ε)}
    (hrun : TraverseApprovees store cb fR tSEP sig fuel start u0 = some (st, res)) :
    ∀ h, countP (isCondCallOf h) st.trace ≤ 1 := by
  refine runApprovees_condOnce fuel 0 (mkInitApprovees start u0) st res ?_ hrun
  intro h
  exact ⟨by simp [mkInitApprovees, countP], fun _ => by simp [mkInitApprovees, countP]⟩

/-- Witness for claim C2: the chain traversal from hash 2 returns, and its
trace indeed invokes the predicate at most once per hash. -/
theorem traverseApprovees_condition_once_witness :
    TraverseApprovees chainStore trivialApproveeCb true false (fun _ => false) 10 2 () =
      some (chainStApprovees, none) ∧
    ∀ h, countP (isCondCallOf h) chainStApprovees.trace ≤ 1 :=
  ⟨rfl, traverseApprovees_condition_once (show
    TraverseApprovees chainStore trivialApproveeCb true false (fun _ => false) 10 2 () =
      some (chainStApprovees, none) from rfl)⟩

theorem exists_mem_of_countP_pos {p : Event → Bool} {tr : List Event}
    (h : 1 ≤ countP p tr) : ∃ e ∈ tr, p e = true := by
  induction tr with
  | nil => simp [countP] at h
  | cons e tr ih =>
    by_cases hp : p e
    · exact ⟨e, by simp, hp⟩
    · rw [countP_cons, if_neg (by simp [hp])] at h
      obtain ⟨x, hx1, hx2⟩ := ih (by omega)
      exact ⟨x, by simp [hx1], hx2⟩

/-- Per-identifier enqueue invariant of the approver traversal: the trace
holds at most one enqueue per hash, and every enqueued hash is in the
discovered set. -/
def EnqOnce {σ : Type} (s : ApproverState σ) : Prop :=
  ∀ h, countP (isEnqueueOf h) s.trace ≤ 1 ∧
    (1 ≤ countP (isEnqueueOf h) s.trace → s.discovered h = true)

theorem processStackApprovers_enqOnce {σ ε : Type} {store : TxStore}
    {cb : ApproverCallbacks σ ε} {fR ab : Bool} {s s2 : ApproverState σ}
    {res : Option (TravError ε)} (hInv : EnqOnce s)
    (hstep : processStackApprovers store cb fR ab s = (s2, res)) :
    EnqOnce s2 := by
  rcases processStackApprovers_cases store cb fR ab s s2 res hstep with
    ⟨-, rfl, -⟩ | ⟨-, -, rfl, -⟩ |
    ⟨h, rest, -, -, -, rfl, -⟩ |
    ⟨h, rest, tx, q2, d2, u2, mid, -, -, -, hres, rfl⟩
  · exact hInv
  · exact hInv
  · exact hInv
  · have htr : ∀ x, countP (isEnqueueOf x)
        (s.trace ++ Event.resolveTx h :: mid ++ [Event.releaseTx h fR]) =
        countP (isEnqueueOf x) s.trace + countP (isEnqueueOf x) mid :=
      fun x => countP_step_trace _ _ _ _ _ rfl rfl
    rcases approversResolved_cases _ _ _ _ _ _ _ _ _ _ _ _ hres with
      ⟨u3, e, -, rfl, rfl, rfl, rfl, -⟩ |
      ⟨u3, -, rfl, rfl, rfl, rfl, -⟩ |
      ⟨u3, u4, e, -, -, rfl, rfl, rfl, rfl, -⟩ |
      ⟨u3, u4, enq, -, -, henq, rfl, rfl, -⟩
    · intro x
      have hz : countP (isEnqueueOf x) [Event.retainTx h, Event.condCall h none] = 0 := by
        simp [countP, List.filter_cons, isEnqueueOf]
      constructor
      · rw [htr x, hz]
        have := (hInv x).1
        omega
      · rw [htr x, hz]
        intro hcnt
        exact (hInv x).2 (by omega)
    · intro x
      have hz : countP (isEnqueueOf x)
          [Event.retainTx h, Event.condCall h (some false)] = 0 := by
        simp [countP, List.filter_cons, isEnqueueOf]
      constructor
      · rw [htr x, hz]
        have := (hInv x).1
        omega
      · rw [htr x, hz]
        intro hcnt
        exact (hInv x).2 (by omega)
    · intro x
      have hz : countP (isEnqueueOf x) [Event.retainTx h, Event.condCall h (some true),
          Event.retainTx h, Event.consumeCall h] = 0 := by
        simp [countP, List.filter_cons, isEnqueueOf]
      constructor
      · rw [htr x, hz]
        have := (hInv x).1
        omega
      · rw [htr x, hz]
        intro hcnt
        exact (hInv x).2 (by omega)
    · have F := enqueueApprovers_facts (store.approvers h) rest s.discovered q2 d2 enq henq
      intro x
      have hpre : countP (isEnqueueOf x) ([Event.retainTx h, Event.condCall h (some true),
          Event.retainTx h, Event.consumeCall h] ++ enq) = countP (isEnqueueOf x) enq := by
        rw [countP_append]
        simp [countP, List.filter_cons, isEnqueueOf]
      by_cases hc : 1 ≤ countP (isEnqueueOf x) enq
      · obtain ⟨e, he1, he2⟩ := exists_mem_of_countP_pos hc
        obtain ⟨y, hy1, hy2, hy3⟩ := F.events e he1
        subst hy1
        have hyx : y = x := by
          by_contra hne
          simp [isEnqueueOf, hne] at he2
        rw [hyx] at hy2 hy3
        have h0 : countP (isEnqueueOf x) s.trace = 0 := by
          by_contra hne
          have h1 : 1 ≤ countP (isEnqueueOf x) s.trace := by omega
          have := (hInv x).2 h1
          rw [this] at hy2; cases hy2
        constructor
        · rw [htr x, hpre, h0]
          simpa using F.enqOnce x
        · intro _
          exact hy3
      · have h0 : countP (isEnqueueOf x) enq = 0 := by omega
        constructor
        · rw [htr x, hpre, h0]
          simpa using (hInv x).1
        · intro hcnt
          rw [htr x, hpre, h0] at hcnt
          exact F.dmono x ((hInv x).2 (by omega))

theorem runApprovers_enqOnce {σ ε : Type} {store : TxStore} {cb : ApproverCallbacks σ ε}
    {fR : Bool} {sig : Nat → Bool} :
    ∀ (fuel i : Nat) (s : ApproverState σ) (st : ApproverState σ)
      (res : Option (TravError ε)),
      EnqOnce s →
      runApprovers store cb fR sig fuel i s = some (st, res) →
      EnqOnce st := by
  intro fuel
  induction fuel with
  | zero =>
    intro i s st res hInv hrun
    rw [runApprovers] at hrun
    split at hrun
    · simp only [Option.some.injEq, Prod.mk.injEq] at hrun
      obtain ⟨rfl, -⟩ := hrun
      exact hInv
    · cases hrun
  | succ fuel ih =>
    intro i s st res hInv hrun
    rw [runApprovers] at hrun
    split at hrun
    · simp only [Option.some.injEq, Prod.mk.injEq] at hrun
      obtain ⟨rfl, -⟩ := hrun
      exact hInv
    · rcases hstep : processStackApprovers store cb fR (sig i) s with ⟨s2, res2⟩
      rw [hstep] at hrun
      have hInv2 := processStackApprovers_enqOnce hInv hstep
      cases res2 with
      | some e =>
        simp only [Option.some.injEq, Prod.mk.injEq] at hrun
        obtain ⟨rfl, -⟩ := hrun
        exact hInv2
      | none => exact ih (i + 1) s2 st res hInv2 hrun

/-- Claim C5: during a single `TraverseApprovers` call every identifier
(including the start, which is seeded into the queue and the discovered
set) is enqueued at most once, even when reachable from several
predecessors: hashes enter the discovered set at enqueue time and a hash
already discovered is never enqueued again, so the trace of any run holds
at most one `enqueue` event per hash, and each enqueued hash is marked
discovered. -/
theorem traverseApprovers_enqueue_once {σ ε : Type} {store : TxStore}
    {cb : ApproverCallbacks σ ε} {fR : Bool} {sig : Nat → Bool} {fuel start : Nat}
    {u0 : σ} {st : ApproverState σ} {res : Option (TravError ε)}
    (hrun : TraverseApprovers store cb fR sig fuel start u0 = some (st, res)) :
    ∀ h, countP (isEnqueueOf h) st.trace ≤ 1 ∧
      (1 ≤ countP (isEnqueueOf h) st.trace → st.discovered h = true) := by
  refine runApprovers_enqOnce fuel 0 (mkInitApprovers start u0) st res ?_ hrun
  intro h
  by_cases hx : h = start
  · subst hx
    constructor
    · simp [mkInitApprovers, countP, List.filter_cons, isEnqueueOf]
    · intro _
      simp [mkInitApprovers, updSet]
  · have hhx : ¬(start = h) := fun hh => hx hh.symm
    constructor
    · simp [mkInitApprovers, countP, List.filter_cons, isEnqueueOf, hhx]
    · intro hc
      simp [mkInitApprovers, countP, List.filter_cons, isEnqueueOf, hhx] at hc

/-- Witness for claim C5: the future-cone diamond traversal from hash 0
(where hash 3 is an approver of both 1 and 2) returns, and its trace
enqueues every hash at most once. -/
theorem traverseApprovers_enqueue_once_witness :
    TraverseApprovers approverDiamondStore trivialApproverCb true (fun _ => false)
      10 0 () = some (diamondStApprovers, none) ∧
    ∀ h, countP (isEnqueueOf h) diamondStApprovers.trace ≤ 1 ∧
      (1 ≤ countP (isEnqueueOf h) diamondStApprovers.trace →
        diamondStApprovers.discovered h = true) :=
  ⟨rfl, traverseApprovers_enqueue_once (show
    TraverseApprovers approverDiamondStore trivialApproverCb true (fun _ => false)
      10 0 () = some (diamondStApprovers, none) from rfl)⟩

theorem countP_step_trace_full (p : Event → Bool) (tr mid : List Event) (e1 e2 : Event) :
    countP p (tr ++ e1 :: mid ++ [e2]) =
      countP p tr + countP p mid + (if p e1 then 1 else 0) + (if p e2 then 1 else 0) := by
  rw [countP_append, countP_append, countP_cons, countP_cons, countP_nil]
  omega

/-- Handle-ledger balance of a trace: every successful store acquisition
is matched by exactly one engine release, and every retain is matched by
exactly one handle-receiving callback invocation (whose release is the
callback's own obligation). -/
def BalancedTrace (tr : List Event) : Prop :=
  countP isResolveEv tr = countP isReleaseEv tr ∧
  countP isRetainEv tr = countP isCondEv tr + countP isConsumeEv tr

theorem approveesTraverse_balance {σ ε : Type} {store : TxStore}
    {cb : ApproveeCallbacks σ ε} {tSEP : Bool} {h : Nat} {rest : List Nat} {tx : Tx}
    {traverse : Bool} {v : Nat → Option Bool} {u : σ} {pre : List Event}
    {stack2 : List Nat} {v2 : Nat → Option Bool} {u2 : σ} {mid : List Event}
    {res : Option (TravError ε)}
    (ht : approveesTraverse store cb tSEP h rest tx traverse v u pre =
      (stack2, v2, u2, mid, res)) :
    ∃ d, countP isRetainEv mid = countP isRetainEv pre + d ∧
      countP isConsumeEv mid = countP isConsumeEv pre + d ∧
      countP isCondEv mid = countP isCondEv pre ∧
      countP isResolveEv mid = countP isResolveEv pre ∧
      countP isReleaseEv mid = countP isReleaseEv pre := by
  rcases approveesTraverse_cases _ _ _ _ _ _ _ _ _ _ _ _ _ _ _ ht with
    ⟨-, -, -, -, rfl, -⟩ | ⟨sepEv, a, -, hscan, -, rfl, -⟩ |
    ⟨sepEv, u3, r, -, hscan, -, -, rfl, -⟩
  · exact ⟨0, rfl, rfl, rfl, rfl, rfl⟩
  · have F := scanApprovees_facts store cb.onSolidEntryPoint tSEP (approveesOf tx)
      v u v2 u2 sepEv (some a) hscan
    have hz : ∀ q : Event → Bool, (∀ y, q (Event.sepCall y) = false) →
        countP q sepEv = 0 := by
      intro q hq
      apply countP_eq_zero
      intro e he
      obtain ⟨y, hy, -, -⟩ := F.events e he
      subst hy; exact hq y
    refine ⟨0, ?_, ?_, ?_, ?_, ?_⟩ <;>
      rw [countP_append, hz _ (fun y => rfl)] <;> omega
  · have F := scanApprovees_facts store cb.onSolidEntryPoint tSEP (approveesOf tx)
      v u v2 u3 sepEv none hscan
    have hz : ∀ q : Event → Bool, (∀ y, q (Event.sepCall y) = false) →
        countP q sepEv = 0 := by
      intro q hq
      apply countP_eq_zero
      intro e he
      obtain ⟨y, hy, -, -⟩ := F.events e he
      subst hy; exact hq y
    refine ⟨1, ?_, ?_, ?_, ?_, ?_⟩ <;>
      rw [countP_append, countP_append, hz _ (fun y => rfl)] <;>
      simp [countP, List.filter_cons, isRetainEv, isConsumeEv, isCondEv, isResolveEv,
        isReleaseEv]

theorem approveesResolved_balance {σ ε : Type} {store : TxStore}
    {cb : ApproveeCallbacks σ ε} {tSEP : Bool} {h : Nat} {rest : List Nat} {tx : Tx}
    {v : Nat → Option Bool} {u : σ} {stack2 : List Nat} {v2 : Nat → Option Bool} {u2 : σ}
    {mid : List Event} {res : Option (TravError ε)}
    (hr : approveesResolved store cb tSEP h rest tx v u = (stack2, v2, u2, mid, res)) :
    countP isRetainEv mid = countP isCondEv mid + countP isConsumeEv mid ∧
    countP isResolveEv mid = 0 ∧ countP isReleaseEv mid = 0 := by
  rcases approveesResolved_cases _ _ _ _ _ _ _ _ _ _ _ _ _ hr with
    ⟨u3, e, -, -, -, -, -, rfl, -⟩ |
    ⟨traverse, u3, -, -, htrav⟩ |
    ⟨traverse, -, htrav⟩
  · simp [countP, List.filter_cons, isRetainEv, isConsumeEv, isCondEv, isResolveEv,
      isReleaseEv]
  · obtain ⟨d, h1, h2, h3, h4, h5⟩ := approveesTraverse_balance htrav
    rw [h1, h2, h3, h4, h5]
    simp [countP, List.filter_cons, isRetainEv, isConsumeEv, isCondEv, isResolveEv,
      isReleaseEv]
  · obtain ⟨d, h1, h2, h3, h4, h5⟩ := approveesTraverse_balance htrav
    rw [h1, h2, h3, h4, h5]
    simp [countP, isRetainEv, isConsumeEv, isCondEv, isResolveEv, isReleaseEv]

theorem processStackApprovees_balance {σ ε : Type} {store : TxStore}
    {cb : ApproveeCallbacks σ ε} {fR tSEP ab : Bool} {s s2 : ApproveeState σ}
    {res : Option (TravError ε)} (hInv : BalancedTrace s.trace)
    (hstep : processStackApprovees store cb fR tSEP ab s = (s2, res)) :
    BalancedTrace s2.trace := by
  rcases processStackApprovees_cases store cb fR tSEP ab s s2 res hstep with
    ⟨-, rfl, -⟩ | ⟨-, -, rfl, -⟩ |
    ⟨h, rest, u2, r, -, -, -, -, rfl, -⟩ |
    ⟨h, rest, tx, stack2, v2, u2, mid, -, -, -, hres, rfl⟩
  · exact hInv
  · exact hInv
  · obtain ⟨hb1, hb2⟩ := hInv
    have hz : ∀ q : Event → Bool, q (Event.missingCall h) = false →
        countP q (s.trace ++ [Event.missingCall h]) = countP q s.trace := by
      intro q hq
      rw [countP_append, countP_singleton, hq]
      simp
    constructor
    · show countP isResolveEv (s.trace ++ [Event.missingCall h]) =
        countP isReleaseEv (s.trace ++ [Event.missingCall h])
      rw [hz isResolveEv rfl, hz isReleaseEv rfl]
      exact hb1
    · show countP isRetainEv (s.trace ++ [Event.missingCall h]) =
        countP isCondEv (s.trace ++ [Event.missingCall h]) +
        countP isConsumeEv (s.trace ++ [Event.missingCall h])
      rw [hz isRetainEv rfl, hz isCondEv rfl, hz isConsumeEv rfl]
      exact hb2
  · obtain ⟨hb1, hb2⟩ := hInv
    obtain ⟨hm1, hm2, hm3⟩ := approveesResolved_balance hres
    constructor
    · show countP isResolveEv (s.trace ++ Event.resolveTx h :: mid ++
        [Event.releaseTx h fR]) = countP isReleaseEv (s.trace ++ Event.resolveTx h :: mid ++
        [Event.releaseTx h fR])
      rw [countP_step_trace_full, countP_step_trace_full, hm2, hm3]
      simp [isResolveEv, isReleaseEv]
      omega
    · show countP isRetainEv (s.trace ++ Event.resolveTx h :: mid ++
        [Event.releaseTx h fR]) = _
      rw [countP_step_trace_full, countP_step_trace_full, countP_step_trace_full, hm1]
      simp [isRetainEv, isCondEv, isConsumeEv]
      omega

theorem approversResolved_balance {σ ε : Type} {store : TxStore}
    {cb : ApproverCallbacks σ ε} {h : Nat} {rest : List Nat} {tx : Tx}
    {d : Nat → Bool} {u : σ} {q2 : List Nat} {d2 : Nat → Bool} {u2 : σ}
    {mid : List Event} {res : Option (TravError ε)}
    (hr : approversResolved store cb h rest tx d u = (q2, d2, u2, mid, res)) :
    countP isRetainEv mid = countP isCondEv mid + countP isConsumeEv mid ∧
    countP isResolveEv mid = 0 ∧ countP isReleaseEv mid = 0 := by
  rcases approversResolved_cases _ _ _ _ _ _ _ _ _ _ _ _ hr with
    ⟨u3, e, -, -, -, -, rfl, -⟩ |
    ⟨u3, -, -, -, -, rfl, -⟩ |
    ⟨u3, u4, e, -, -, -, -, -, rfl, -⟩ |
    ⟨u3, u4, enq, -, -, henq, -, rfl, -⟩
  · simp [countP, List.filter_cons, isRetainEv, isConsumeEv, isCondEv, isResolveEv,
      isReleaseEv]
  · simp [countP, List.filter_cons, isRetainEv, isConsumeEv, isCondEv, isResolveEv,
      isReleaseEv]
  · simp [countP, List.filter_cons, isRetainEv, isConsumeEv, isCondEv, isResolveEv,
      isReleaseEv]
  · have F := enqueueApprovers_facts (store.approvers h) rest d q2 d2 enq henq
    have hz : ∀ q : Event → Bool, (∀ y, q (Event.enqueue y) = false) →
        countP q enq = 0 := by
      intro q hq
      apply countP_eq_zero
      intro e he
      obtain ⟨y, hy, -, -⟩ := F.events e he
      subst hy; exact hq y
    refine ⟨?_, ?_, ?_⟩
    · rw [countP_append, countP_append, countP_append, hz isRetainEv (fun y => rfl),
        hz isCondEv (fun y => rfl), hz isConsumeEv (fun y => rfl)]
      simp [countP, List.filter_cons, isRetainEv, isConsumeEv, isCondEv]
    · rw [countP_append, hz isResolveEv (fun y => rfl)]
      simp [countP, List.filter_cons, isResolveEv]
    · rw [countP_append, hz isReleaseEv (fun y => rfl)]
      simp [countP, List.filter_cons, isReleaseEv]

theorem processStackApprovers_balance {σ ε : Type} {store : TxStore}
    {cb : ApproverCallbacks σ ε} {fR ab : Bool} {s s2 : ApproverState σ}
    {res : Option (TravError ε)} (hInv : BalancedTrace s.trace)
    (hstep : processStackApprovers store cb fR ab s = (s2, res)) :
    BalancedTrace s2.trace := by
  rcases processStackApprovers_cases store cb fR ab s s2 res hstep with
    ⟨-, rfl, -⟩ | ⟨-, -, rfl, -⟩ |
    ⟨h, rest, -, -, -, rfl, -⟩ |
    ⟨h, rest, tx, q2, d2, u2, mid, -, -, -, hres, rfl⟩
  · exact hInv
  · exact hInv
  · exact hInv
  · obtain ⟨hb1, hb2⟩ := hInv
    obtain ⟨hm1, hm2, hm3⟩ := approversResolved_balance hres
    constructor
    · show countP isResolveEv (s.trace ++ Event.resolveTx h :: mid ++
        [Event.releaseTx h fR]) = countP isReleaseEv (s.trace ++ Event.resolveTx h :: mid ++
        [Event.releaseTx h fR])
      rw [countP_step_trace_full, countP_step_trace_full, hm2, hm3]
      simp [isResolveEv, isReleaseEv]
      omega
    · show countP isRetainEv (s.trace ++ Event.resolveTx h :: mid ++
        [Event.releaseTx h fR]) = _
      rw [countP_step_trace_full, countP_step_trace_full, countP_step_trace_full, hm1]
      simp [isRetainEv, isCondEv, isConsumeEv]
      omega

theorem runApprovees_balance {σ ε : Type} {store : TxStore} {cb : ApproveeCallbacks σ ε}
    {fR tSEP : Bool} {sig : Nat → Bool} :
    ∀ (fuel i : Nat) (s : ApproveeState σ) (st : ApproveeState σ)
      (res : Option (TravError ε)),
      BalancedTrace s.trace →
      runApprovees store cb fR tSEP sig fuel i s = some (st, res) →
      BalancedTrace st.trace := by
  intro fuel
  induction fuel with
  | zero =>
    intro i s st res hInv hrun
    rw [runApprovees] at hrun
    split at hrun
    · simp only [Option.some.injEq, Prod.mk.injEq] at hrun
      obtain ⟨rfl, -⟩ := hrun
      exact hInv
    · cases hrun
  | succ fuel ih =>
    intro i s st res hInv hrun
    rw [runApprovees] at hrun
    split at hrun
    · simp only [Option.some.injEq, Prod.mk.injEq] at hrun
      obtain ⟨rfl, -⟩ := hrun
      exact hInv
    · rcases hstep : processStackApprovees store cb fR tSEP (sig i) s with ⟨s2, res2⟩
      rw [hstep] at hrun
      have hInv2 := processStackApprovees_balance hInv hstep
      cases res2 with
      | some e =>
        simp only [Option.some.injEq, Prod.mk.injEq] at hrun
        obtain ⟨rfl, -⟩ := hrun
        exact hInv2
      | none => exact ih (i + 1) s2 st res hInv2 hrun

theorem runApprovers_balance {σ ε : Type} {store : TxStore} {cb : ApproverCallbacks σ ε}
    {fR : Bool} {sig : Nat → Bool} :
    ∀ (fuel i : Nat) (s : ApproverState σ) (st : ApproverState σ)
      (res : Option (TravError ε)),
      BalancedTrace s.trace →
      runApprovers store cb fR sig fuel i s = some (st, res) →
      BalancedTrace st.trace := by
  intro fuel
  induction fuel with
  | zero =>
    intro i s st res hInv hrun
    rw [runApprovers] at hrun
    split at hrun
    · simp only [Option.some.injEq, Prod.mk.injEq] at hrun
      obtain ⟨rfl, -⟩ := hrun
      exact hInv
    · cases hrun
  | succ fuel ih =>
    intro i s st res hInv hrun
    rw [runApprovers] at hrun
    split at hrun
    · simp only [Option.some.injEq, Prod.mk.injEq] at hrun
      obtain ⟨rfl, -⟩ := hrun
      exact hInv
    · rcases hstep : processStackApprovers store cb fR (sig i) s with ⟨s2, res2⟩
      rw [hstep] at hrun
      have hInv2 := processStackApprovers_balance hInv hstep
      cases res2 with
      | some e =>
        simp only [Option.some.injEq, Prod.mk.injEq] at hrun
        obtain ⟨rfl, -⟩ := hrun
        exact hInv2
      | none => exact ih (i + 1) s2 st res hInv2 hrun

/-- Claim C8: for every traversal call, on every exit path (normal return,
error return, or early return of a step), the engine-side handle ledger is
balanced: the number of successful store resolutions equals the number of
engine (deferred) releases, and the number of extra retains equals the
number of handle-receiving callback invocations (predicate plus consumer).
Assuming each callback releases the retained handle it is given — as the
`FindAllTails` callbacks do — total acquisitions therefore equal total
releases. -/
theorem traversal_handle_balance :
    (∀ (σ ε : Type) (store : TxStore) (cb : ApproveeCallbacks σ ε) (fR tSEP : Bool)
      (sig : Nat → Bool) (fuel start : Nat) (u0 : σ) (st : ApproveeState σ)
      (res : Option (TravError ε)),
      TraverseApprovees store cb fR tSEP sig fuel start u0 = some (st, res) →
      countP isResolveEv st.trace = countP isReleaseEv st.trace ∧
      countP isRetainEv st.trace = countP isCondEv st.trace + countP isConsumeEv st.trace) ∧
    (∀ (σ ε : Type) (store : TxStore) (cb : ApproverCallbacks σ ε) (fR : Bool)
      (sig : Nat → Bool) (fuel start : Nat) (u0 : σ) (st : ApproverState σ)
      (res : Option (TravError ε)),
      TraverseApprovers store cb fR sig fuel start u0 = some (st, res) →
      countP isResolveEv st.trace = countP isReleaseEv st.trace ∧
      countP isRetainEv st.trace = countP isCondEv st.trace + countP isConsumeEv st.trace) := by
  constructor
  · intro σ ε store cb fR tSEP sig fuel start u0 st res hrun
    refine runApprovees_balance fuel 0 (mkInitApprovees start u0) st res ?_ hrun
    exact ⟨rfl, rfl⟩
  · intro σ ε store cb fR sig fuel start u0 st res hrun
    refine runApprovers_balance fuel 0 (mkInitApprovers start u0) st res ?_ hrun
    constructor <;> simp [mkInitApprovers, countP, List.filter_cons, isResolveEv,
      isReleaseEv, isRetainEv, isCondEv, isConsumeEv]

/-- Witness for claim C8: both concrete runs return and their traces are
balanced. -/
theorem traversal_handle_balance_witness :
    (TraverseApprovees chainStore trivialApproveeCb true false (fun _ => false) 10 2 () =
      some (chainStApprovees, none) ∧
      countP isResolveEv chainStApprovees.trace =
        countP isReleaseEv chainStApprovees.trace ∧
      countP isRetainEv chainStApprovees.trace =
        countP isCondEv chainStApprovees.trace +
          countP isConsumeEv chainStApprovees.trace) ∧
    (TraverseApprovers approverDiamondStore trivialApproverCb true (fun _ => false)
        10 0 () = some (diamondStApprovers, none) ∧
      countP isResolveEv diamondStApprovers.trace =
        countP isReleaseEv diamondStApprovers.trace ∧
      countP isRetainEv diamondStApprovers.trace =
        countP isCondEv diamondStApprovers.trace +
          countP isConsumeEv diamondStApprovers.trace) :=
  ⟨⟨rfl, traversal_handle_balance.1 Unit Unit chainStore trivialApproveeCb true false
      (fun _ => false) 10 2 () chainStApprovees none rfl⟩,
    ⟨rfl, traversal_handle_balance.2 Unit Unit approverDiamondStore trivialApproverCb true
      (fun _ => false) 10 0 () diamondStApprovers none rfl⟩⟩

/-- Claim C7: every step of both traversals checks the cooperative abort
signal first — a signalled step returns `operationAborted` with the state
(and hence the trace) completely untouched, before resolving, evaluating
or consuming anything; consequently a traversal whose abort signal is
already set before the first step returns the aborted error with zero
consumer and zero predicate invocations. -/
theorem traversal_abort_immediate :
    (∀ (σ ε : Type) (store : TxStore) (cb : ApproveeCallbacks σ ε) (fR tSEP : Bool)
      (s : ApproveeState σ),
      processStackApprovees store cb fR tSEP true s =
        ((s, some TravError.operationAborted) :
          ApproveeState σ × Option (TravError ε))) ∧
    (∀ (σ ε : Type) (store : TxStore) (cb : ApproverCallbacks σ ε) (fR : Bool)
      (s : ApproverState σ),
      processStackApprovers store cb fR true s =
        ((s, some TravError.operationAborted) :
          ApproverState σ × Option (TravError ε))) ∧
    (∀ (σ ε : Type) (store : TxStore) (cb : ApproveeCallbacks σ ε) (fR tSEP : Bool)
      (sig : Nat → Bool) (fuel start : Nat) (u0 : σ),
      sig 0 = true →
      TraverseApprovees store cb fR tSEP sig (fuel + 1) start u0 =
        ((some (mkInitApprovees start u0, some TravError.operationAborted)) :
          Option (ApproveeState σ × Option (TravError ε))) ∧
      countP isConsumeEv (mkInitApprovees start u0).trace = 0 ∧
      countP isCondEv (mkInitApprovees start u0).trace = 0) ∧
    (∀ (σ ε : Type) (store : TxStore) (cb : ApproverCallbacks σ ε) (fR : Bool)
      (sig : Nat → Bool) (fuel start : Nat) (u0 : σ),
      sig 0 = true →
      TraverseApprovers store cb fR sig (fuel + 1) start u0 =
        ((some (mkInitApprovers start u0, some TravError.operationAborted)) :
          Option (ApproverState σ × Option (TravError ε))) ∧
      countP isConsumeEv (mkInitApprovers start u0).trace = 0 ∧
      countP isCondEv (mkInitApprovers start u0).trace = 0) := by
  refine ⟨fun σ ε store cb fR tSEP s => rfl, fun σ ε store cb fR s => rfl, ?_, ?_⟩
  · intro σ ε store cb fR tSEP sig fuel start u0 hsig
    refine ⟨?_, rfl, rfl⟩
    rw [TraverseApprovees, runApprovees]
    rw [if_neg (by simp [mkInitApprovees])]
    rw [hsig]
    rfl
  · intro σ ε store cb fR sig fuel start u0 hsig
    refine ⟨?_, rfl, rfl⟩
    rw [TraverseApprovers, runApprovers]
    rw [if_neg (by simp [mkInitApprovers])]
    rw [hsig]
    rfl

/-- Witness for claim C7: with the abort signal set from the start, both
step functions return the untouched state with the aborted error, and
both drivers return the aborted error having invoked no callback. -/
theorem traversal_abort_immediate_witness :
    (processStackApprovees emptyStore trivialApproveeCb true false true
      (mkInitApprovees 0 ()) = (mkInitApprovees 0 (), some TravError.operationAborted)) ∧
    (processStackApprovers emptyStore trivialApproverCb true true
      (mkInitApprovers 0 ()) = (mkInitApprovers 0 (), some TravError.operationAborted)) ∧
    ((fun _ : Nat => true) 0 = true) ∧
    (TraverseApprovees chainStore trivialApproveeCb true false (fun _ => true) 10 2 () =
      some (mkInitApprovees 2 (), some TravError.operationAborted) ∧
      countP isConsumeEv (mkInitApprovees 2 ()).trace = 0 ∧
      countP isCondEv (mkInitApprovees 2 ()).trace = 0) ∧
    (TraverseApprovers approverDiamondStore trivialApproverCb true (fun _ => true)
        10 0 () = some (mkInitApprovers 0 (), some TravError.operationAborted) ∧
      countP isConsumeEv (mkInitApprovers 0 ()).trace = 0 ∧
      countP isCondEv (mkInitApprovers 0 ()).trace = 0) :=
  ⟨traversal_abort_immediate.1 Unit Unit emptyStore trivialApproveeCb true false _,
    traversal_abort_immediate.2.1 Unit Unit emptyStore trivialApproverCb true _,
    rfl,
    traversal_abort_immediate.2.2.1 Unit Unit chainStore trivialApproveeCb true false
      (fun _ => true) 9 2 () rfl,
    traversal_abort_immediate.2.2.2 Unit Unit approverDiamondStore trivialApproverCb true
      (fun _ => true) 9 0 () rfl⟩

/-- Claim C6: when the front identifier cannot be resolved,
`processStackApprovers` immediately returns a `transactionNotFound` error
(hard failure, nothing else changes beyond the already-performed pop),
whereas `processStackApprovees` marks the identifier do-not-traverse in
the visited map, removes it from the stack, invokes `onMissingApprovee`
on it, propagates that callback's error if there is one, and otherwise
continues without error. -/
theorem traversal_missing_node_behavior :
    (∀ (σ ε : Type) (store : TxStore) (cb : ApproverCallbacks σ ε) (fR : Bool)
      (s : ApproverState σ) (h : Nat) (rest : List Nat),
      s.queue = h :: rest → store.resolve h = none →
      processStackApprovers store cb fR false s =
        ({ queue := rest, discovered := s.discovered, user := s.user, trace := s.trace },
          some (TravError.transactionNotFound h))) ∧
    (∀ (σ ε : Type) (store : TxStore) (cb : ApproveeCallbacks σ ε) (fR tSEP : Bool)
      (s : ApproveeState σ) (h : Nat) (rest : List Nat),
      s.stack = h :: rest → store.resolve h = none →
      (∀ u2, cb.onMissingApprovee s.user h = (u2, Except.ok ()) →
        processStackApprovees store cb fR tSEP false s =
          ({ stack := rest, visited := updMap s.visited h false, user := u2,
             trace := s.trace ++ [Event.missingCall h] }, none)) ∧
      (∀ u2 e, cb.onMissingApprovee s.user h = (u2, Except.error e) →
        processStackApprovees store cb fR tSEP false s =
          ({ stack := rest, visited := updMap s.visited h false, user := u2,
             trace := s.trace ++ [Event.missingCall h] }, some (TravError.user e)))) := by
  constructor
  · intro σ ε store cb fR s h rest hq hres
    simp [processStackApprovers, hq, hres]
  · intro σ ε store cb fR tSEP s h rest hq hres
    constructor
    · intro u2 hm
      simp [processStackApprovees, hq, hres, hm]
    · intro u2 e hm
      simp [processStackApprovees, hq, hres, hm]

/-- Witness for claim C6: on a store with no transactions, the approver
step fails hard with `transactionNotFound` while the approvee step calls
the missing-approvee callback and continues. -/
theorem traversal_missing_node_behavior_witness :
    ((mkInitApprovers 0 () : ApproverState Unit).queue = 0 :: [] ∧
      emptyStore.resolve 0 = none ∧
      processStackApprovers emptyStore trivialApproverCb true false (mkInitApprovers 0 ()) =
        ({ queue := [], discovered := (mkInitApprovers 0 () : ApproverState Unit).discovered,
           user := (), trace := (mkInitApprovers 0 () : ApproverState Unit).trace },
          some (TravError.transactionNotFound 0))) ∧
    ((mkInitApprovees 0 () : ApproveeState Unit).stack = 0 :: [] ∧
      trivialApproveeCb.onMissingApprovee () 0 = ((), Except.ok ()) ∧
      processStackApprovees emptyStore trivialApproveeCb true false false
          (mkInitApprovees 0 ()) =
        ({ stack := [],
           visited := updMap (mkInitApprovees 0 () : ApproveeState Unit).visited 0 false,
           user := (),
           trace := (mkInitApprovees 0 () : ApproveeState Unit).trace ++
             [Event.missingCall 0] }, none)) :=
  ⟨⟨rfl, rfl, traversal_missing_node_behavior.1 Unit Unit emptyStore trivialApproverCb
      true _ 0 [] rfl rfl⟩,
    ⟨rfl, rfl, (traversal_missing_node_behavior.2 Unit Unit emptyStore trivialApproveeCb
      true false _ 0 [] rfl rfl).1 () rfl⟩⟩

/-- All engine release events of a trace carry the eviction flag `fR`. -/
def ReleasesAre (fR : Bool) (tr : List Event) : Prop :=
  ∀ h b, Event.releaseTx h b ∈ tr → b = fR

theorem processStackApprovees_releaseFlag {σ ε : Type} {store : TxStore}
    {cb : ApproveeCallbacks σ ε} {fR tSEP ab : Bool} {s s2 : ApproveeState σ}
    {res : Option (TravError ε)} (hInv : ReleasesAre fR s.trace)
    (hstep : processStackApprovees store cb fR tSEP ab s = (s2, res)) :
    ReleasesAre fR s2.trace := by
  rcases processStackApprovees_cases store cb fR tSEP ab s s2 res hstep with
    ⟨-, rfl, -⟩ | ⟨-, -, rfl, -⟩ |
    ⟨h, rest, u2, r, -, -, -, -, rfl, -⟩ |
    ⟨h, rest, tx, stack2, v2, u2, mid, -, -, -, hres, rfl⟩
  · exact hInv
  · exact hInv
  · intro x b hmem
    simp only [List.mem_append, List.mem_singleton] at hmem
    rcases hmem with hmem | hmem
    · exact hInv x b hmem
    · cases hmem
  · obtain ⟨-, -, hrel⟩ := approveesResolved_balance hres
    intro x b hmem
    simp only [List.mem_append, List.mem_cons, List.mem_singleton] at hmem
    rcases hmem with (hmem | hmem | hmem) | hmem
    · exact hInv x b hmem
    · cases hmem
    · exact absurd (countP_pos_of_mem hmem rfl) (by rw [hrel]; simp)
    · rcases hmem with ⟨-, rfl⟩ | hmem
      · rfl
      · simp at hmem

theorem runApprovees_releaseFlag {σ ε : Type} {store : TxStore}
    {cb : ApproveeCallbacks σ ε} {fR tSEP : Bool} {sig : Nat → Bool} :
    ∀ (fuel i : Nat) (s : ApproveeState σ) (st : ApproveeState σ)
      (res : Option (TravError ε)),
      ReleasesAre fR s.trace →
      runApprovees store cb fR tSEP sig fuel i s = some (st, res) →
      ReleasesAre fR st.trace := by
  intro fuel
  induction fuel with
  | zero =>
    intro i s st res hInv hrun
    rw [runApprovees] at hrun
    split at hrun
    · simp only [Option.some.injEq, Prod.mk.injEq] at hrun
      obtain ⟨rfl, -⟩ := hrun
      exact hInv
    · cases hrun
  | succ fuel ih =>
    intro i s st res hInv hrun
    rw [runApprovees] at hrun
    split at hrun
    · simp only [Option.some.injEq, Prod.mk.injEq] at hrun
      obtain ⟨rfl, -⟩ := hrun
      exact hInv
    · rcases hstep : processStackApprovees store cb fR tSEP (sig i) s with ⟨s2, res2⟩
      rw [hstep] at hrun
      have hInv2 := processStackApprovees_releaseFlag hInv hstep
      cases res2 with
      | some e =>
        simp only [Option.some.injEq, Prod.mk.injEq] at hrun
        obtain ⟨rfl, -⟩ := hrun
        exact hInv2
      | none => exact ih (i + 1) s2 st res hInv2 hrun

/-- Claim C3 is violated by the code (code bug): `FindAllTails` accepts a
`forceRelease` parameter but passes the literal `true` to
`TraverseApprovees`, so every engine release of the underlying traversal
uses eviction flag `true` regardless of the caller's `force_release`
argument — in particular also when the caller passes `false`. -/
theorem findAllTails_forceRelease_ignored :
    (∀ (store : TxStore) (fuel start : Nat) (skip force : Bool)
      (st : ApproveeState (List Nat)) (res : Option (TravError FindTailsError)),
      FindAllTailsRun store fuel start skip force = some (st, res) →
      ∀ h b, Event.releaseTx h b ∈ st.trace → b = true) ∧
    (FindAllTailsRun chainStore 10 2 false false = some (chainTailsSt, none) ∧
      Event.releaseTx 2 true ∈ chainTailsSt.trace ∧
      countP (isReleaseForce false) chainTailsSt.trace = 0 ∧
      1 ≤ countP (isReleaseForce true) chainTailsSt.trace) := by
  constructor
  · intro store fuel start skip force st res hrun
    exact runApprovees_releaseFlag fuel 0 (mkInitApprovees start []) st res
      (fun h b hmem => absurd hmem (by simp [mkInitApprovees])) hrun
  · exact ⟨rfl, by decide, by decide, by decide⟩

/-- Witness for claim C3: the concrete run with `force_release := false`
returns, and all its engine releases carry flag `true`. -/
theorem findAllTails_forceRelease_ignored_witness :
    FindAllTailsRun chainStore 10 2 false false = some (chainTailsSt, none) ∧
    (∀ h b, Event.releaseTx h b ∈ chainTailsSt.trace → b = true) :=
  ⟨rfl, findAllTails_forceRelease_ignored.1 chainStore 10 2 false false chainTailsSt
    none rfl⟩

/-- Claim C4: on the chain 2 → 1 → 0 with only 0 a tail,
`FindAllTails` from 2 without skipping returns exactly the tail 0; when
the start 2 is itself a tail, the same call returns exactly 2 and never
resolves 2's approvee (hash 9 is never acquired and, being absent, would
have produced an error); with `skip_start` set the traversal continues
past the tail start 2 and returns the deeper tail 0. -/
theorem findAllTails_chain_scenarios :
    FindAllTails chainStore 10 2 false false = some ([0], none) ∧
    (FindAllTails tailStartStore 10 2 false false = some ([2], none) ∧
      FindAllTailsRun tailStartStore 10 2 false false = some (tailStartSt, none) ∧
      countP (isResolveOf 9) tailStartSt.trace = 0) ∧
    FindAllTails tailChainStore 10 2 true false = some ([0], none) := by
  exact ⟨rfl, ⟨rfl, rfl, by decide⟩, rfl⟩

/-- Claim C10: when the underlying traversal of `FindAllTails` fails,
`FindAllTails` still returns the tails recorded up to the failure
alongside the error (Go: `return tails, err`, never `nil, err`); on the
concrete store where the tail 1 is found before the missing approvee 0 is
hit, the call returns the singleton tail set together with the wrapped
tail-search error naming hash 0. -/
theorem findAllTails_partial_results :
    (∀ (store : TxStore) (fuel start : Nat) (skip force : Bool)
      (st : ApproveeState (List Nat)) (e : TravError FindTailsError),
      FindAllTailsRun store fuel start skip force = some (st, some e) →
      FindAllTails store fuel start skip force = some (st.user, some e)) ∧
    FindAllTails partialTailsStore 10 2 false false =
      some ([1], some (TravError.user (FindTailsError.findAllTailsFailed 0))) := by
  constructor
  · intro store fuel start skip force st e hrun
    simp [FindAllTails, hrun]
  · rfl

/-- Witness for claim C10: the failing run on `partialTailsStore` returns
its recorded tails (exactly `[1]`) together with the error. -/
theorem findAllTails_partial_results_witness :
    FindAllTailsRun partialTailsStore 10 2 false false =
      some (partialTailsSt, some (TravError.user (FindTailsError.findAllTailsFailed 0))) ∧
    FindAllTails partialTailsStore 10 2 false false =
      some (partialTailsSt.user, some (TravError.user
        (FindTailsError.findAllTailsFailed 0))) :=
  ⟨rfl, findAllTails_partial_results.1 partialTailsStore 10 2 false false partialTailsSt
    (TravError.user (FindTailsError.findAllTailsFailed 0)) rfl⟩

/-- Counterexample to claim C9 as stated: in the diamond where both
consumed nodes 2 and 1 reference the solid entry point 0, the
`onSolidEntryPoint` callback fires only once — the second encounter of 0
is suppressed by the visited map (the code marks the approvee visited
precisely "to not call onSolidEntryPoint repeatedly"), so the callback is
not invoked at the time each referencing node is processed. -/
theorem onSolidEntryPoint_not_per_reference :
    diamondSepRun = some (diamondSepSt, none) ∧
    Event.consumeCall 2 ∈ diamondSepSt.trace ∧
    Event.consumeCall 1 ∈ diamondSepSt.trace ∧
    diamondSepStore.isSolidEntryPoint 0 = true ∧
    diamondSepStore.resolve 2 = some ⟨2, 0, 0, false⟩ ∧
    0 ∈ approveesOf ⟨2, 0, 0, false⟩ ∧
    diamondSepStore.resolve 1 = some ⟨1, 0, 0, false⟩ ∧
    0 ∈ approveesOf ⟨1, 0, 0, false⟩ ∧
    countP (isSepCallOf 0) diamondSepSt.trace = 1 :=
  ⟨rfl, by decide, by decide, rfl, rfl, by decide, rfl, by decide, by decide⟩

theorem eq_sepCall_of_isSepCallOf {x : Nat} {e : Event} (hp : isSepCallOf x e = true) :
    e = Event.sepCall x := by
  cases e with
  | sepCall h2 =>
    by_cases hh : h2 = x
    · rw [hh]
    · simp [isSepCallOf, hh] at hp
  | resolveTx h2 => simp [isSepCallOf] at hp
  | retainTx h2 => simp [isSepCallOf] at hp
  | releaseTx h2 b => simp [isSepCallOf] at hp
  | condCall h2 r => simp [isSepCallOf] at hp
  | consumeCall h2 => simp [isSepCallOf] at hp
  | missingCall h2 => simp [isSepCallOf] at hp
  | enqueue h2 => simp [isSepCallOf] at hp


/-- What one resolved approvee step contributes to the boundary-callback
bookkeeping: every boundary notification in `mid` concerns a solid entry
point that was unvisited (and distinct from the processed hash) and is
afterwards either in the visited map or pushed on top of the stack; `mid`
notifies each hash at most once; the visited map only grows, its new
entries besides the processed hash had a notification, the processed hash
ends handled, stack newcomers are non-boundary or notified, and a
consumption settles all approvees in the visited map. -/
theorem approveesResolved_sepFacts {σ ε : Type} {store : TxStore}
    {cb : ApproveeCallbacks σ ε} {tSEP : Bool} {h : Nat} {rest : List Nat} {tx : Tx}
    {v : Nat → Option Bool} {u : σ} {stack2 : List Nat} {v2 : Nat → Option Bool} {u2 : σ}
    {mid : List Event} {res : Option (TravError ε)}
    (hr : approveesResolved store cb tSEP h rest tx v u = (stack2, v2, u2, mid, res)) :
    (∀ x, Event.sepCall x ∈ mid →
      store.isSolidEntryPoint x = true ∧ v x = none ∧ x ≠ h ∧
      (v2 x ≠ none ∨ stack2.head? = some x)) ∧
    (∀ x, countP (isSepCallOf x) mid ≤ 1) ∧
    (∀ y b, v y = some b → v2 y = some b) ∧
    (∀ y, v2 y ≠ v y → y = h ∨ Event.sepCall y ∈ mid) ∧
    (v2 h ≠ none ∨ stack2.head? = some h) ∧
    (∀ y, y ∈ stack2 → y ∈ h :: rest ∨
      store.isSolidEntryPoint y = false ∨ Event.sepCall y ∈ mid) ∧
    (∀ h2, Event.consumeCall h2 ∈ mid → h2 = h ∧ ∀ a ∈ approveesOf tx, v2 a ≠ none) := by
  have hcore : ∀ (vpre : Nat → Option Bool) (u3 : σ) (pre : List Event) (traverse : Bool),
      vpre h ≠ none → (∀ y, y ≠ h → vpre y = v y) →
      (∀ y b, v y = some b → vpre y = some b) →
      (∀ x, Event.sepCall x ∉ pre) → (∀ h2, Event.consumeCall h2 ∉ pre) →
      (∀ x, countP (isSepCallOf x) pre = 0) →
      approveesTraverse store cb tSEP h rest tx traverse vpre u3 pre =
        (stack2, v2, u2, mid, res) →
      traverse = true →
      (∀ x, Event.sepCall x ∈ mid →
        store.isSolidEntryPoint x = true ∧ v x = none ∧ x ≠ h ∧
        (v2 x ≠ none ∨ stack2.head? = some x)) ∧
      (∀ x, countP (isSepCallOf x) mid ≤ 1) ∧
      (∀ y b, vpre y = some b → v2 y = some b) ∧
      (∀ y, v2 y ≠ v y → y = h ∨ Event.sepCall y ∈ mid) ∧
      (∀ y, y ∈ stack2 → y ∈ h :: rest ∨
        store.isSolidEntryPoint y = false ∨ Event.sepCall y ∈ mid) ∧
      (∀ h2, Event.consumeCall h2 ∈ mid → h2 = h ∧
        ∀ a ∈ approveesOf tx, v2 a ≠ none) := by
    intro vpre u3 pre traverse hvpreh hvpre_eq hvpre_mono hpre_sep hpre_cons hpre_cnt
      htrav htt
    subst htt
    rcases approveesTraverse_cases _ _ _ _ _ _ _ _ _ _ _ _ _ _ _ htrav with
      ⟨hfalse, -⟩ |
      ⟨sepEv, a, -, hscan, rfl, rfl, -⟩ |
      ⟨sepEv, u4, r, -, hscan, -, rfl, rfl, -⟩
    · cases hfalse
    · have F := scanApprovees_facts store cb.onSolidEntryPoint tSEP (approveesOf tx)
        vpre u3 v2 u2 sepEv (some a) hscan
      have hmm : ∀ x, Event.sepCall x ∈ pre ++ sepEv ↔ Event.sepCall x ∈ sepEv := by
        intro x
        simp only [List.mem_append]
        exact ⟨fun hx => hx.resolve_left (hpre_sep x), Or.inr⟩
      refine ⟨?_, ?_, ?_, ?_, ?_, ?_⟩
      · intro x hx
        rw [hmm] at hx
        obtain ⟨y, hy, hsep2, hvy⟩ := F.events _ hx
        rw [Event.sepCall.injEq] at hy
        subst hy
        have hxh : x ≠ h := fun hxh => hvpreh (hxh ▸ hvy)
        refine ⟨hsep2, by rw [← hvpre_eq x hxh]; exact hvy, hxh, ?_⟩
        rcases F.afterSep x hx with hL | hR
        · exact Or.inl hL
        · rw [Option.some.injEq] at hR
          subst hR
          exact Or.inr rfl
      · intro x
        rw [countP_append, hpre_cnt x]
        simpa using F.sepOnce x
      · exact F.mono
      · intro y hy
        by_cases hyh : y = h
        · exact Or.inl hyh
        · have h1 : v2 y ≠ vpre y := by
            rw [hvpre_eq y hyh]; exact hy
          obtain ⟨-, -, -, hmem⟩ := F.newFalse y h1
          exact Or.inr ((hmm y).mpr hmem)
      · intro y hy
        rcases List.mem_cons.mp hy with hy | hy
        · subst hy
          rcases F.pushSep y rfl with hL | hR
          · exact Or.inr (Or.inl hL)
          · exact Or.inr (Or.inr ((hmm y).mpr hR))
        · exact Or.inl hy
      · intro h2 hh2
        rw [List.mem_append] at hh2
        rcases hh2 with hh2 | hh2
        · exact absurd hh2 (hpre_cons h2)
        · obtain ⟨y, hy, -, -⟩ := F.events _ hh2
          cases hy
    · have F := scanApprovees_facts store cb.onSolidEntryPoint tSEP (approveesOf tx)
        vpre u3 v2 u4 sepEv none hscan
      have hmm : ∀ x, Event.sepCall x ∈ pre ++ sepEv ++
          [Event.retainTx h, Event.consumeCall h] ↔ Event.sepCall x ∈ sepEv := by
        intro x
        simp only [List.mem_append, List.mem_cons, List.mem_singleton]
        constructor
        · intro hx
          rcases hx with (hx | hx) | hx
          · exact absurd hx (hpre_sep x)
          · exact hx
          · rcases hx with hx | hx | hx
            · cases hx
            · cases hx
            · cases hx
        · intro hx
          exact Or.inl (Or.inr hx)
      refine ⟨?_, ?_, ?_, ?_, ?_, ?_⟩
      · intro x hx
        rw [hmm] at hx
        obtain ⟨y, hy, hsep2, hvy⟩ := F.events _ hx
        rw [Event.sepCall.injEq] at hy
        subst hy
        have hxh : x ≠ h := fun hxh => hvpreh (hxh ▸ hvy)
        refine ⟨hsep2, by rw [← hvpre_eq x hxh]; exact hvy, hxh, ?_⟩
        rcases F.afterSep x hx with hL | hR
        · exact Or.inl hL
        · cases hR
      · intro x
        rw [countP_append, countP_append, hpre_cnt x]
        have hz : countP (isSepCallOf x)
            [Event.retainTx h, Event.consumeCall h] = 0 := by
          simp [countP, List.filter_cons, isSepCallOf]
        rw [hz]
        simpa using F.sepOnce x
      · exact F.mono
      · intro y hy
        by_cases hyh : y = h
        · exact Or.inl hyh
        · have h1 : v2 y ≠ vpre y := by
            rw [hvpre_eq y hyh]; exact hy
          obtain ⟨-, -, -, hmem⟩ := F.newFalse y h1
          exact Or.inr ((hmm y).mpr hmem)
      · intro y hy
        exact Or.inl (List.mem_cons_of_mem h hy)
      · intro h2 hh2
        simp only [List.mem_append, List.mem_cons, List.mem_singleton] at hh2
        rcases hh2 with (hh2 | hh2) | hh2
        · exact absurd hh2 (hpre_cons h2)
        · obtain ⟨y, hy, -, -⟩ := F.events _ hh2
          cases hy
        · rcases hh2 with hh2 | hh2 | hh2
          · cases hh2
          · rw [Event.consumeCall.injEq] at hh2
            exact ⟨hh2, F.finished rfl⟩
          · cases hh2
  rcases approveesResolved_cases _ _ _ _ _ _ _ _ _ _ _ _ _ hr with
    ⟨u3, e, hvh, hcond, rfl, rfl, rfl, rfl, rfl⟩ |
    ⟨traverse, u3, hvh, hcond, htrav⟩ |
    ⟨traverse, hvh, htrav⟩
  · refine ⟨?_, ?_, fun y b hb => hb, fun y hy => absurd rfl hy, Or.inr rfl, ?_, ?_⟩
    · intro x hx
      simp [List.mem_cons] at hx
    · intro x
      simp [countP, List.filter_cons, isSepCallOf]
    · intro y hy
      exact Or.inl hy
    · intro h2 hh2
      simp [List.mem_cons] at hh2
  · cases traverse with
    | false =>
      rcases approveesTraverse_cases _ _ _ _ _ _ _ _ _ _ _ _ _ _ _ htrav with
        ⟨-, rfl, rfl, rfl, rfl, -⟩ | ⟨sepEv, a, htt, -⟩ | ⟨sepEv, u4, r, htt, -⟩
      · refine ⟨?_, ?_, ?_, ?_, ?_, ?_, ?_⟩
        · intro x hx
          simp [List.mem_cons] at hx
        · intro x
          simp [countP, List.filter_cons, isSepCallOf]
        · intro y b hb
          have hyh : y ≠ h := fun hy => by rw [hy, hvh] at hb; cases hb
          simp [updMap, hyh, hb]
        · intro y hy
          by_cases hyh : y = h
          · exact Or.inl hyh
          · exact absurd (by simp [updMap, hyh]) hy
        · exact Or.inl (by simp [updMap])
        · intro y hy
          exact Or.inl (List.mem_cons_of_mem h hy)
        · intro h2 hh2
          simp [List.mem_cons] at hh2
      · cases htt
      · cases htt
    | true =>
      have hC := hcore (updMap v h true) u3
        [Event.retainTx h, Event.condCall h (some true)] true
        (by simp [updMap])
        (fun y hy => by simp [updMap, hy])
        (fun y b hb => by
          have hyh : y ≠ h := fun hy => by rw [hy, hvh] at hb; cases hb
          simp [updMap, hyh, hb])
        (fun x => by simp [List.mem_cons])
        (fun h2 => by simp [List.mem_cons])
        (fun x => by simp [countP, List.filter_cons, isSepCallOf])
        htrav rfl
      obtain ⟨c1, c2, c3, c4, c5, c6⟩ := hC
      refine ⟨c1, c2, ?_, c4, ?_, c5, c6⟩
      · intro y b hb
        have hyh : y ≠ h := fun hy => by rw [hy, hvh] at hb; cases hb
        exact c3 y b (by simp [updMap, hyh, hb])
      · exact Or.inl (by
          have := c3 h true (by simp [updMap])
          rw [this]; simp)
  · cases htv : traverse with
    | false =>
      subst htv
      rcases approveesTraverse_cases _ _ _ _ _ _ _ _ _ _ _ _ _ _ _ htrav with
        ⟨-, rfl, rfl, rfl, rfl, -⟩ | ⟨sepEv, a, htt, -⟩ | ⟨sepEv, u4, r, htt, -⟩
      · refine ⟨?_, ?_, fun y b hb => hb, fun y hy => absurd rfl hy, ?_, ?_, ?_⟩
        · intro x hx
          simp [List.mem_cons] at hx
        · intro x
          simp [countP, List.filter_cons, isSepCallOf]
        · exact Or.inl (by rw [hvh]; simp)
        · intro y hy
          exact Or.inl (List.mem_cons_of_mem h hy)
        · intro h2 hh2
          simp [List.mem_cons] at hh2
      · cases htt
      · cases htt
    | true =>
      subst htv
      have hC := hcore v u [] true
        (by rw [hvh]; simp)
        (fun y _ => rfl)
        (fun y b hb => hb)
        (fun x => by simp)
        (fun h2 => by simp)
        (fun x => by simp [countP])
        htrav rfl
      obtain ⟨c1, c2, c3, c4, c5, c6⟩ := hC
      refine ⟨c1, c2, c3, c4, ?_, c5, c6⟩
      exact Or.inl (by
        have := c3 h true hvh
        rw [this]; simp)

/-- Invariant of the approvee traversal about boundary notifications: each
hash is notified at most once; a notified hash is memoized or sits on top
of the stack; only solid entry points are notified; every hash that ever
entered the stack or the visited map is the start, a non-boundary, or was
notified; and every consumed node has had all its boundary approvees
notified (unless the approvee is the start hash). -/
structure SepInv {σ : Type} (store : TxStore) (start : Nat)
    (s : ApproveeState σ) : Prop where
  kOnce : ∀ x, countP (isSepCallOf x) s.trace ≤ 1
  kLoc : ∀ x, 1 ≤ countP (isSepCallOf x) s.trace →
    s.visited x ≠ none ∨ s.stack.head? = some x
  onlySep : ∀ x, Event.sepCall x ∈ s.trace → store.isSolidEntryPoint x = true
  locSep : ∀ a, (a ∈ s.stack ∨ s.visited a ≠ none) →
    a = start ∨ store.isSolidEntryPoint a = false ∨ Event.sepCall a ∈ s.trace
  consumed : ∀ h tx, Event.consumeCall h ∈ s.trace → store.resolve h = some tx →
    ∀ a ∈ approveesOf tx, store.isSolidEntryPoint a = true →
      a = start ∨ Event.sepCall a ∈ s.trace

theorem processStackApprovees_sepInv {σ ε : Type} {store : TxStore}
    {cb : ApproveeCallbacks σ ε} {fR tSEP ab : Bool} {start : Nat}
    {s s2 : ApproveeState σ} {res : Option (TravError ε)}
    (hInv : SepInv store start s)
    (hstep : processStackApprovees store cb fR tSEP ab s = (s2, res)) :
    SepInv store start s2 := by
  rcases processStackApprovees_cases store cb fR tSEP ab s s2 res hstep with
    ⟨-, rfl, -⟩ | ⟨-, -, rfl, -⟩ |
    ⟨h, rest, u2, r, -, hstack, -, -, rfl, -⟩ |
    ⟨h, rest, tx, stack2, v2, u2, mid, -, hstack, hres, hmid, rfl⟩
  · exact hInv
  · exact hInv
  · have hms : ∀ x, Event.sepCall x ∈ s.trace ++ [Event.missingCall h] ↔
        Event.sepCall x ∈ s.trace := by
      intro x
      simp [List.mem_append]
    have hmc : ∀ x, Event.consumeCall x ∈ s.trace ++ [Event.missingCall h] ↔
        Event.consumeCall x ∈ s.trace := by
      intro x
      simp [List.mem_append]
    have hcnt : ∀ x, countP (isSepCallOf x) (s.trace ++ [Event.missingCall h]) =
        countP (isSepCallOf x) s.trace := by
      intro x
      rw [countP_append, countP_singleton]
      simp [isSepCallOf]
    have hupd : ∀ x, s.visited x ≠ none → updMap s.visited h false x ≠ none := by
      intro x hx
      by_cases hxh : x = h
      · subst hxh; simp [updMap]
      · simpa [updMap, hxh] using hx
    refine ⟨?_, ?_, ?_, ?_, ?_⟩
    · intro x
      rw [hcnt x]
      exact hInv.kOnce x
    · intro x hx
      rw [hcnt x] at hx
      rcases hInv.kLoc x hx with hL | hR
      · exact Or.inl (hupd x hL)
      · rw [hstack] at hR
        simp only [List.head?_cons, Option.some.injEq] at hR
        subst hR
        exact Or.inl (by simp [updMap])
    · intro x hx
      exact hInv.onlySep x ((hms x).mp hx)
    · intro a ha
      have hold : a ∈ s.stack ∨ s.visited a ≠ none := by
        rcases ha with ha | ha
        · exact Or.inl (by rw [hstack]; exact List.mem_cons_of_mem h ha)
        · by_cases hah : a = h
          · subst hah; exact Or.inl (by rw [hstack]; exact List.mem_cons_self _ _)
          · right
            intro hnone
            exact ha (by simpa [updMap, hah] using hnone)
      rcases hInv.locSep a hold with hL | hM | hR
      · exact Or.inl hL
      · exact Or.inr (Or.inl hM)
      · exact Or.inr (Or.inr ((hms a).mpr hR))
    · intro h2 tx2 hh2 hres2 a ha hsep2
      rcases hInv.consumed h2 tx2 ((hmc h2).mp hh2) hres2 a ha hsep2 with hL | hR
      · exact Or.inl hL
      · exact Or.inr ((hms a).mpr hR)
  · obtain ⟨f1, f2, f3, f4, f5, f6, f7⟩ := approveesResolved_sepFacts hmid
    have hms : ∀ x, Event.sepCall x ∈ s.trace ++ Event.resolveTx h :: mid ++
        [Event.releaseTx h fR] ↔
        Event.sepCall x ∈ s.trace ∨ Event.sepCall x ∈ mid := by
      intro x
      simp only [List.mem_append, List.mem_cons, List.mem_singleton]
      constructor
      · intro hx
        rcases hx with (hx | hx | hx) | hx
        · exact Or.inl hx
        · cases hx
        · exact Or.inr hx
        · rcases hx with hx | hx
          · cases hx
          · cases hx
      · intro hx
        rcases hx with hx | hx
        · exact Or.inl (Or.inl hx)
        · exact Or.inl (Or.inr (Or.inr hx))
    have hmc : ∀ x, Event.consumeCall x ∈ s.trace ++ Event.resolveTx h :: mid ++
        [Event.releaseTx h fR] ↔
        Event.consumeCall x ∈ s.trace ∨ Event.consumeCall x ∈ mid := by
      intro x
      simp only [List.mem_append, List.mem_cons, List.mem_singleton]
      constructor
      · intro hx
        rcases hx with (hx | hx | hx) | hx
        · exact Or.inl hx
        · cases hx
        · exact Or.inr hx
        · rcases hx with hx | hx
          · cases hx
          · cases hx
      · intro hx
        rcases hx with hx | hx
        · exact Or.inl (Or.inl hx)
        · exact Or.inl (Or.inr (Or.inr hx))
    have hcnt : ∀ x, countP (isSepCallOf x) (s.trace ++ Event.resolveTx h :: mid ++
        [Event.releaseTx h fR]) =
        countP (isSepCallOf x) s.trace + countP (isSepCallOf x) mid :=
      fun x => countP_step_trace _ _ _ _ _ rfl rfl
    have hne_mono : ∀ y, s.visited y ≠ none → v2 y ≠ none := by
      intro y hy
      cases hvy : s.visited y with
      | none => exact absurd hvy hy
      | some b => rw [f3 y b hvy]; simp
    have hlocSep2 : ∀ a, (a ∈ stack2 ∨ v2 a ≠ none) →
        a = start ∨ store.isSolidEntryPoint a = false ∨
          (Event.sepCall a ∈ s.trace ∨ Event.sepCall a ∈ mid) := by
      intro a ha
      rcases ha with ha | ha
      · rcases f6 a ha with hL | hM | hR
        · rcases hInv.locSep a (Or.inl (by rw [hstack]; exact hL)) with g1 | g2 | g3
          · exact Or.inl g1
          · exact Or.inr (Or.inl g2)
          · exact Or.inr (Or.inr (Or.inl g3))
        · exact Or.inr (Or.inl hM)
        · exact Or.inr (Or.inr (Or.inr hR))
      · by_cases hva : s.visited a = none
        · have : v2 a ≠ s.visited a := by rw [hva]; exact ha
          rcases f4 a this with hL | hR
          · subst hL
            rcases hInv.locSep a (Or.inl (by rw [hstack]; exact List.mem_cons_self _ _))
              with g1 | g2 | g3
            · exact Or.inl g1
            · exact Or.inr (Or.inl g2)
            · exact Or.inr (Or.inr (Or.inl g3))
          · exact Or.inr (Or.inr (Or.inr hR))
        · rcases hInv.locSep a (Or.inr hva) with g1 | g2 | g3
          · exact Or.inl g1
          · exact Or.inr (Or.inl g2)
          · exact Or.inr (Or.inr (Or.inl g3))
    refine ⟨?_, ?_, ?_, ?_, ?_⟩
    · intro x
      rw [hcnt x]
      by_cases hc : 1 ≤ countP (isSepCallOf x) mid
      · obtain ⟨e, he1, he2⟩ := exists_mem_of_countP_pos hc
        have he := eq_sepCall_of_isSepCallOf he2
        subst he
        obtain ⟨-, hvx, hxh, -⟩ := f1 x he1
        have h0 : countP (isSepCallOf x) s.trace = 0 := by
          by_contra hne
          rcases hInv.kLoc x (by omega) with hL | hR
          · exact hL hvx
          · rw [hstack] at hR
            simp only [List.head?_cons, Option.some.injEq] at hR
            exact hxh hR.symm
        rw [h0]
        simpa using f2 x
      · have := hInv.kOnce x
        omega
    · intro x hx
      rw [hcnt x] at hx
      by_cases hc : 1 ≤ countP (isSepCallOf x) mid
      · obtain ⟨e, he1, he2⟩ := exists_mem_of_countP_pos hc
        have he := eq_sepCall_of_isSepCallOf he2
        subst he
        obtain ⟨-, -, -, hafter⟩ := f1 x he1
        exact hafter
      · have hx2 : 1 ≤ countP (isSepCallOf x) s.trace := by omega
        rcases hInv.kLoc x hx2 with hL | hR
        · exact Or.inl (hne_mono x hL)
        · rw [hstack] at hR
          simp only [List.head?_cons, Option.some.injEq] at hR
          subst hR
          exact f5
    · intro x hx
      rcases (hms x).mp hx with hx | hx
      · exact hInv.onlySep x hx
      · exact (f1 x hx).1
    · intro a ha
      rcases hlocSep2 a ha with g1 | g2 | g3
      · exact Or.inl g1
      · exact Or.inr (Or.inl g2)
      · exact Or.inr (Or.inr ((hms a).mpr g3))
    · intro h2 tx2 hh2 hres2 a ha hsep2
      rcases (hmc h2).mp hh2 with hh2 | hh2
      · rcases hInv.consumed h2 tx2 hh2 hres2 a ha hsep2 with hL | hR
        · exact Or.inl hL
        · exact Or.inr ((hms a).mpr (Or.inl hR))
      · obtain ⟨hh2h, hfin⟩ := f7 h2 hh2
        subst hh2h
        rw [hres] at hres2
        rw [Option.some.injEq] at hres2
        subst hres2
        have hv2a : v2 a ≠ none := hfin a ha
        rcases hlocSep2 a (Or.inr hv2a) with g1 | g2 | g3
        · exact Or.inl g1
        · rw [hsep2] at g2; cases g2
        · exact Or.inr ((hms a).mpr g3)

theorem runApprovees_sepInv {σ ε : Type} {store : TxStore} {cb : ApproveeCallbacks σ ε}
    {fR tSEP : Bool} {sig : Nat → Bool} {start : Nat} :
    ∀ (fuel i : Nat) (s : ApproveeState σ) (st : ApproveeState σ)
      (res : Option (TravError ε)),
      SepInv store start s →
      runApprovees store cb fR tSEP sig fuel i s = some (st, res) →
      SepInv store start st := by
  intro fuel
  induction fuel with
  | zero =>
    intro i s st res hInv hrun
    rw [runApprovees] at hrun
    split at hrun
    · simp only [Option.some.injEq, Prod.mk.injEq] at hrun
      obtain ⟨rfl, -⟩ := hrun
      exact hInv
    · cases hrun
  | succ fuel ih =>
    intro i s st res hInv hrun
    rw [runApprovees] at hrun
    split at hrun
    · simp only [Option.some.injEq, Prod.mk.injEq] at hrun
      obtain ⟨rfl, -⟩ := hrun
      exact hInv
    · rcases hstep : processStackApprovees store cb fR tSEP (sig i) s with ⟨s2, res2⟩
      rw [hstep] at hrun
      have hInv2 := processStackApprovees_sepInv hInv hstep
      cases res2 with
      | some e =>
        simp only [Option.some.injEq, Prod.mk.injEq] at hrun
        obtain ⟨rfl, -⟩ := hrun
        exact hInv2
      | none => exact ih (i + 1) s2 st res hInv2 hrun

/-- Claim C9, amended: during `TraverseApprovees` the `onSolidEntryPoint`
callback is invoked only on solid entry points and at most once per
identifier per call — at the first encounter; later encounters of the
same solid entry point (also from different referencing nodes) are
suppressed via the visited map.  The "whenever referenced" guarantee
holds per identifier: every solid-entry-point approvee of a consumed node
other than the start hash itself has received the callback at some point
of the run. -/
theorem traverseApprovees_onSolidEntryPoint_amended {σ ε : Type} {store : TxStore}
    {cb : ApproveeCallbacks σ ε} {fR tSEP : Bool} {sig : Nat → Bool} {fuel start : Nat}
    {u0 : σ} {st : ApproveeState σ} {res : Option (TravError ε)}
    (hrun : TraverseApprovees store cb fR tSEP sig fuel start u0 = some (st, res)) :
    (∀ x, countP (isSepCallOf x) st.trace ≤ 1) ∧
    (∀ x, Event.sepCall x ∈ st.trace → store.isSolidEntryPoint x = true) ∧
    (∀ h tx, Event.consumeCall h ∈ st.trace → store.resolve h = some tx →
      ∀ a ∈ approveesOf tx, store.isSolidEntryPoint a = true →
        a = start ∨ Event.sepCall a ∈ st.trace) := by
  have hInv0 : SepInv store start (mkInitApprovees start u0) := by
    refine ⟨?_, ?_, ?_, ?_, ?_⟩
    · intro x
      simp [mkInitApprovees, countP]
    · intro x hx
      simp [mkInitApprovees, countP] at hx
    · intro x hx
      simp [mkInitApprovees] at hx
    · intro a ha
      rcases ha with ha | ha
      · simp only [mkInitApprovees, List.mem_singleton] at ha
        exact Or.inl ha
      · simp [mkInitApprovees] at ha
    · intro h2 tx2 hh2
      simp [mkInitApprovees] at hh2
  have hF := runApprovees_sepInv fuel 0 (mkInitApprovees start u0) st res hInv0 hrun
  exact ⟨hF.kOnce, hF.onlySep, fun h tx hh hres a ha hsep =>
    hF.consumed h tx hh hres a ha hsep⟩

/-- Witness for the amended claim C9: on the diamond run the boundary
callback fires at most once per hash, only on the solid entry point, and
each consumed node referencing it has it notified. -/
theorem traverseApprovees_onSolidEntryPoint_amended_witness :
    TraverseApprovees diamondSepStore trivialApproveeCb true false (fun _ => false)
      10 3 () = some (diamondSepSt, none) ∧
    (∀ x, countP (isSepCallOf x) diamondSepSt.trace ≤ 1) ∧
    (∀ x, Event.sepCall x ∈ diamondSepSt.trace →
      diamondSepStore.isSolidEntryPoint x = true) ∧
    (∀ h tx, Event.consumeCall h ∈ diamondSepSt.trace →
      diamondSepStore.resolve h = some tx →
      ∀ a ∈ approveesOf tx, diamondSepStore.isSolidEntryPoint a = true →
        a = 3 ∨ Event.sepCall a ∈ diamondSepSt.trace) :=
  ⟨rfl, traverseApprovees_onSolidEntryPoint_amended (show
    TraverseApprovees diamondSepStore trivialApproveeCb true false (fun _ => false)
      10 3 () = some (diamondSepSt, none) from rfl)⟩

theorem stackChain_tail {store : TxStore} {x : Nat} {l : List Nat}
    (h : StackChain store (x :: l)) : StackChain store l := by
  cases l with
  | nil => trivial
  | cons y l => exact h.2

theorem stackChain_reaches {store : TxStore} :
    ∀ (l : List Nat) (h : Nat), StackChain store (h :: l) →
      ∀ x ∈ l, Relation.TransGen (edge store) x h := by
  intro l
  induction l with
  | nil =>
    intro h hch x hx
    simp at hx
  | cons a l ih =>
    intro h hch x hx
    have hedge : edge store a h := hch.1
    have hch2 : StackChain store (a :: l) := hch.2
    rcases List.mem_cons.mp hx with rfl | hx2
    · exact Relation.TransGen.single hedge
    · exact (ih a hch2 x hx2).tail hedge

/-- A store is acyclic whenever some rank function strictly decreases
along every approvee edge. -/
theorem acyclic_of_rank (store : TxStore) (f : Nat → Nat)
    (hf : ∀ x y, edge store x y → f y < f x) : Acyclic store := by
  intro x hcyc
  have hlt : ∀ a b, Relation.TransGen (edge store) a b → f b < f a := by
    intro a b hab
    induction hab with
    | single h => exact hf _ _ h
    | tail hab h ih => exact lt_trans (hf _ _ h) ih
  exact absurd (hlt x x hcyc) (lt_irrefl _)

/-- Appending settle-only events (no consumption) preserves trace
safety. -/
theorem traceSafe_append_no_consume {store : TxStore} {tSEP : Bool}
    {tr Δ : List Event} (hsafe : TraceSafe store tSEP tr)
    (hnc : ∀ h2, Event.consumeCall h2 ∉ Δ) : TraceSafe store tSEP (tr ++ Δ) := by
  intro i h hget tx hrtx a ha
  by_cases hi : i < tr.length
  · rw [List.get?_append hi] at hget
    obtain ⟨e, he, hs⟩ := hsafe i h hget tx hrtx a ha
    refine ⟨e, ?_, hs⟩
    rw [List.take_append_eq_append_take]
    exact List.mem_append_left _ he
  · push_neg at hi
    rw [List.get?_append_right hi] at hget
    exact absurd (List.get?_mem hget) (hnc h)

/-- Appending a block that ends in exactly one consumption, whose
approvees are all settled in the part before it, preserves trace
safety. -/
theorem traceSafe_append_one_consume {store : TxStore} {tSEP : Bool}
    {tr d1 d2 : List Event} {h : Nat} (hsafe : TraceSafe store tSEP tr)
    (hnc1 : ∀ h2, Event.consumeCall h2 ∉ d1)
    (hnc2 : ∀ h2, Event.consumeCall h2 ∉ d2)
    (hset : ∀ tx, store.resolve h = some tx → ∀ a ∈ approveesOf tx,
      ∃ e ∈ tr ++ d1, settlesB tSEP a e = true) :
    TraceSafe store tSEP (tr ++ (d1 ++ Event.consumeCall h :: d2)) := by
  rw [← List.append_assoc]
  intro i h2 hget tx hrtx a ha
  by_cases hi : i < (tr ++ d1).length
  · rw [List.get?_append hi] at hget
    by_cases hi2 : i < tr.length
    · rw [List.get?_append hi2] at hget
      obtain ⟨e, he, hs⟩ := hsafe i h2 hget tx hrtx a ha
      refine ⟨e, ?_, hs⟩
      rw [List.take_append_eq_append_take, List.take_append_eq_append_take]
      exact List.mem_append_left _ (List.mem_append_left _ he)
    · push_neg at hi2
      rw [List.get?_append_right hi2] at hget
      exact absurd (List.get?_mem hget) (hnc1 h2)
  · push_neg at hi
    rw [List.get?_append_right hi] at hget
    rcases hk : i - (tr ++ d1).length with _ | m
    · rw [hk] at hget
      simp only [List.get?_cons_zero, Option.some.injEq] at hget
      have hh2 : h2 = h := by
        rw [Event.consumeCall.injEq] at hget
        exact hget.symm
      subst hh2
      have hieq : i = (tr ++ d1).length := by omega
      subst hieq
      obtain ⟨e, he, hs⟩ := hset tx hrtx a ha
      refine ⟨e, ?_, hs⟩
      rw [List.take_append_eq_append_take, Nat.sub_self, List.take_length,
        List.take_zero, List.append_nil]
      exact he
    · rw [hk] at hget
      simp only [List.get?_cons_succ] at hget
      exact absurd (List.get?_mem hget) (hnc2 h2)

/-- What one successfully resolved, error-free approvee step contributes
to the finalize-on-pop bookkeeping: off the processed hash the visited map
only grows, and its genuinely new entries are boundary exclusions
(visited-false, boundary not traversed, notification in `mid`); the step
either drops the front element as excluded, pushes one of its approvees,
or consumes it with every approvee settled in the visited map. -/
theorem approveesResolved_consFacts {σ ε : Type} {store : TxStore}
    {cb : ApproveeCallbacks σ ε} {tSEP : Bool} {h : Nat} {rest : List Nat} {tx : Tx}
    {v : Nat → Option Bool} {u : σ} {stack2 : List Nat} {v2 : Nat → Option Bool} {u2 : σ}
    {mid : List Event} {res : Option (TravError ε)}
    (hr : approveesResolved store cb tSEP h rest tx v u = (stack2, v2, u2, mid, res))
    (hrn : res = none) :
    (∀ y b, y ≠ h → v y = some b → v2 y = some b) ∧
    (∀ y, y ≠ h → v2 y ≠ v y →
      v y = none ∧ v2 y = some false ∧ tSEP = false ∧ Event.sepCall y ∈ mid) ∧
    ((stack2 = rest ∧ (∀ h2, Event.consumeCall h2 ∉ mid) ∧ v2 h = some false ∧
        (v h = some false ∨ (v h = none ∧ Event.condCall h (some false) ∈ mid))) ∨
      (∃ a0, stack2 = a0 :: h :: rest ∧ a0 ∈ approveesOf tx ∧ v2 h = some true ∧
        (∀ h2, Event.consumeCall h2 ∉ mid)) ∨
      (stack2 = rest ∧ v2 h = some true ∧
        (∃ d1, mid = d1 ++ [Event.retainTx h, Event.consumeCall h] ∧
          (∀ h2, Event.consumeCall h2 ∉ d1)) ∧
        (∀ a ∈ approveesOf tx, v2 a ≠ none))) := by
  subst hrn
  have hcore : ∀ (vpre : Nat → Option Bool) (u3 : σ) (pre : List Event),
      vpre h = some true → (∀ y, y ≠ h → vpre y = v y) →
      (∀ h2, Event.consumeCall h2 ∉ pre) → (∀ x, Event.sepCall x ∉ pre) →
      approveesTraverse store cb tSEP h rest tx true vpre u3 pre =
        (stack2, v2, u2, mid, none) →
      (∀ y b, y ≠ h → v y = some b → v2 y = some b) ∧
      (∀ y, y ≠ h → v2 y ≠ v y →
        v y = none ∧ v2 y = some false ∧ tSEP = false ∧ Event.sepCall y ∈ mid) ∧
      ((∃ a0, stack2 = a0 :: h :: rest ∧ a0 ∈ approveesOf tx ∧ v2 h = some true ∧
          (∀ h2, Event.consumeCall h2 ∉ mid)) ∨
        (stack2 = rest ∧ v2 h = some true ∧
          (∃ d1, mid = d1 ++ [Event.retainTx h, Event.consumeCall h] ∧
            (∀ h2, Event.consumeCall h2 ∉ d1)) ∧
          (∀ a ∈ approveesOf tx, v2 a ≠ none))) := by
    intro vpre u3 pre hvpreh hvpre_eq hpre_cons hpre_sep htrav
    rcases approveesTraverse_cases _ _ _ _ _ _ _ _ _ _ _ _ _ _ _ htrav with
      ⟨hfalse, -⟩ |
      ⟨sepEv, a0, -, hscan, rfl, rfl, -⟩ |
      ⟨sepEv, u4, r, -, hscan, hcons, rfl, rfl, hresx⟩
    · cases hfalse
    · have F := scanApprovees_facts store cb.onSolidEntryPoint tSEP (approveesOf tx)
        vpre u3 v2 u2 sepEv (some a0) hscan
      refine ⟨?_, ?_, Or.inl ⟨a0, rfl, (F.pushOrigin a0 rfl).1,
        F.mono h true hvpreh, ?_⟩⟩
      · intro y b hyh hb
        exact F.mono y b (by rw [hvpre_eq y hyh]; exact hb)
      · intro y hyh hy
        have h2 : v2 y ≠ vpre y := by rw [hvpre_eq y hyh]; exact hy
        obtain ⟨e1, e2, e3, e4⟩ := F.newFalse y h2
        rw [hvpre_eq y hyh] at e1
        exact ⟨e1, e2, e3, List.mem_append_right _ e4⟩
      · intro h2 hmem
        rw [List.mem_append] at hmem
        rcases hmem with hmem | hmem
        · exact hpre_cons h2 hmem
        · obtain ⟨y, hy, -, -⟩ := F.events _ hmem
          cases hy
    · have F := scanApprovees_facts store cb.onSolidEntryPoint tSEP (approveesOf tx)
        vpre u3 v2 u4 sepEv none hscan
      refine ⟨?_, ?_, Or.inr ⟨rfl, F.mono h true hvpreh, ?_, F.finished rfl⟩⟩
      · intro y b hyh hb
        exact F.mono y b (by rw [hvpre_eq y hyh]; exact hb)
      · intro y hyh hy
        have h2 : v2 y ≠ vpre y := by rw [hvpre_eq y hyh]; exact hy
        obtain ⟨e1, e2, e3, e4⟩ := F.newFalse y h2
        rw [hvpre_eq y hyh] at e1
        refine ⟨e1, e2, e3, ?_⟩
        rw [List.append_assoc, List.mem_append]
        exact Or.inr (List.mem_append_left _ e4)
      · refine ⟨pre ++ sepEv, by rw [List.append_assoc], ?_⟩
        intro h2 hmem
        rw [List.mem_append] at hmem
        rcases hmem with hmem | hmem
        · exact hpre_cons h2 hmem
        · obtain ⟨y, hy, -, -⟩ := F.events _ hmem
          cases hy
  rcases approveesResolved_cases _ _ _ _ _ _ _ _ _ _ _ _ _ hr with
    ⟨u3, e, hvh, hcond, -, -, -, -, hsome⟩ |
    ⟨traverse, u3, hvh, hcond, htrav⟩ |
    ⟨traverse, hvh, htrav⟩
  · cases hsome
  · cases traverse with
    | false =>
      rcases approveesTraverse_cases _ _ _ _ _ _ _ _ _ _ _ _ _ _ _ htrav with
        ⟨-, rfl, rfl, rfl, rfl, -⟩ | ⟨sepEv, a0, htt, -⟩ | ⟨sepEv, u4, r, htt, -⟩
      · refine ⟨?_, ?_, Or.inl ⟨rfl, ?_, by simp [updMap], ?_⟩⟩
        · intro y b hyh hb
          simp [updMap, hyh, hb]
        · intro y hyh hy
          exact absurd (by simp [updMap, hyh]) hy
        · intro h2 hmem
          simp [List.mem_cons] at hmem
        · exact Or.inr ⟨hvh, by simp [List.mem_cons]⟩
      · cases htt
      · cases htt
    | true =>
      have hC := hcore (updMap v h true) u3
        [Event.retainTx h, Event.condCall h (some true)]
        (by simp [updMap])
        (fun y hy => by simp [updMap, hy])
        (fun h2 => by simp [List.mem_cons])
        (fun x => by simp [List.mem_cons])
        htrav
      exact ⟨hC.1, hC.2.1, Or.inr hC.2.2⟩
  · cases htv : traverse with
    | false =>
      subst htv
      rcases approveesTraverse_cases _ _ _ _ _ _ _ _ _ _ _ _ _ _ _ htrav with
        ⟨-, rfl, rfl, rfl, rfl, -⟩ | ⟨sepEv, a0, htt, -⟩ | ⟨sepEv, u4, r, htt, -⟩
      · refine ⟨fun y b hyh hb => hb, fun y hyh hy => absurd rfl hy,
          Or.inl ⟨rfl, ?_, hvh, Or.inl hvh⟩⟩
        intro h2 hmem
        simp at hmem
      · cases htt
      · cases htt
    | true =>
      subst htv
      have hC := hcore v u [] hvh (fun y _ => rfl)
        (fun h2 => by simp) (fun x => by simp) htrav
      exact ⟨hC.1, hC.2.1, Or.inr hC.2.2⟩

/-- Invariant of the error-free approvee traversal underlying the
finalize-on-pop guarantee: the trace so far is safe; every stack element
below the front is memoized traverse-true; every traverse-true hash is
still on the stack or already consumed; consecutive stack elements are
approvee edges; every traverse-false hash has a settling event in the
trace; and traverse-true hashes resolve. -/
structure ConsInv {σ : Type} (store : TxStore) (traverseSEP : Bool)
    (s : ApproveeState σ) : Prop where
  safe : TraceSafe store traverseSEP s.trace
  tailTrue : ∀ x ∈ s.stack.drop 1, s.visited x = some true
  trueLoc : ∀ a, s.visited a = some true →
    a ∈ s.stack ∨ Event.consumeCall a ∈ s.trace
  chain : StackChain store s.stack
  falseSettled : ∀ a, s.visited a = some false →
    ∃ e ∈ s.trace, settlesB traverseSEP a e = true
  trueRes : ∀ a, s.visited a = some true → ∃ tx2, store.resolve a = some tx2

theorem consume_notin_block {h : Nat} {fR : Bool} {mid : List Event}
    (hm : ∀ h2, Event.consumeCall h2 ∉ mid) :
    ∀ h2, Event.consumeCall h2 ∉ (Event.resolveTx h :: mid) ++ [Event.releaseTx h fR] := by
  intro h2 hmem
  rw [List.mem_append, List.mem_cons] at hmem
  rcases hmem with (hmem | hmem) | hmem
  · cases hmem
  · exact hm h2 hmem
  · rw [List.mem_singleton] at hmem
    cases hmem

theorem processStackApprovees_consInv {σ ε : Type} {store : TxStore}
    {cb : ApproveeCallbacks σ ε} {fR tSEP ab : Bool} {s s2 : ApproveeState σ}
    (hacyc : Acyclic store) (hInv : ConsInv store tSEP s)
    (hstep : processStackApprovees store cb fR tSEP ab s =
      ((s2, none) : ApproveeState σ × Option (TravError ε))) :
    ConsInv store tSEP s2 := by
  rcases processStackApprovees_cases store cb fR tSEP ab s s2 none hstep with
    ⟨-, -, habs⟩ | ⟨-, -, rfl, -⟩ |
    ⟨h, rest, u2, r, -, hstack, hres, -, rfl, -⟩ |
    ⟨h, rest, tx, stack2, v2, u2, mid, -, hstack, hres, hmid, rfl⟩
  · cases habs
  · exact hInv
  · have htail : ∀ x ∈ rest, s.visited x = some true := by
      intro x hx
      have hd : x ∈ s.stack.drop 1 := by rw [hstack]; exact hx
      exact hInv.tailTrue x hd
    refine ⟨?_, ?_, ?_, ?_, ?_, ?_⟩
    · exact traceSafe_append_no_consume hInv.safe (fun h2 => by simp)
    · intro x hx
      have hxr : x ∈ rest := List.mem_of_mem_drop hx
      have hxt := htail x hxr
      have hxh : x ≠ h := by
        intro hxe
        subst hxe
        obtain ⟨tx2, htx2⟩ := hInv.trueRes x hxt
        rw [hres] at htx2
        cases htx2
      show updMap s.visited h false x = some true
      simpa [updMap, hxh] using hxt
    · intro a ha
      have ha2 : updMap s.visited h false a = some true := ha
      have hah : a ≠ h := by
        intro hae
        subst hae
        simp [updMap] at ha2
      simp only [updMap, if_neg hah] at ha2
      rcases hInv.trueLoc a ha2 with hL | hR
      · rw [hstack] at hL
        rcases List.mem_cons.mp hL with hL | hL
        · exact absurd hL hah
        · exact Or.inl hL
      · exact Or.inr (List.mem_append_left _ hR)
    · exact stackChain_tail (hstack ▸ hInv.chain)
    · intro a ha
      have ha2 : updMap s.visited h false a = some false := ha
      by_cases hah : a = h
      · subst hah
        exact ⟨Event.missingCall a, List.mem_append_right _ (by simp),
          by simp [settlesB]⟩
      · simp only [updMap, if_neg hah] at ha2
        obtain ⟨e, he, hs⟩ := hInv.falseSettled a ha2
        exact ⟨e, List.mem_append_left _ he, hs⟩
    · intro a ha
      have ha2 : updMap s.visited h false a = some true := ha
      have hah : a ≠ h := by
        intro hae
        subst hae
        simp [updMap] at ha2
      simp only [updMap, if_neg hah] at ha2
      exact hInv.trueRes a ha2
  · obtain ⟨cmono, cnew, cdisj⟩ := approveesResolved_consFacts hmid rfl
    have hmemTr : ∀ e ∈ s.trace,
        e ∈ s.trace ++ Event.resolveTx h :: mid ++ [Event.releaseTx h fR] :=
      fun e he => List.mem_append_left _ (List.mem_append_left _ he)
    have hmemMid : ∀ e ∈ mid,
        e ∈ s.trace ++ Event.resolveTx h :: mid ++ [Event.releaseTx h fR] :=
      fun e he => List.mem_append_left _
        (List.mem_append_right _ (List.mem_cons_of_mem _ he))
    have htail : ∀ x ∈ rest, s.visited x = some true := by
      intro x hx
      have hd : x ∈ s.stack.drop 1 := by rw [hstack]; exact hx
      exact hInv.tailTrue x hd
    have hchainRest : StackChain store (h :: rest) := hstack ▸ hInv.chain
    have hedge : ∀ a ∈ approveesOf tx, edge store h a := fun a ha => ⟨tx, hres, ha⟩
    have hnotInStack : ∀ a ∈ approveesOf tx, a ∉ s.stack := by
      intro a ha hmem
      rw [hstack] at hmem
      rcases List.mem_cons.mp hmem with hmem | hmem
      · subst hmem
        exact hacyc a (Relation.TransGen.single (hedge a ha))
      · exact hacyc h (Relation.TransGen.head (hedge a ha)
          (stackChain_reaches rest h hchainRest a hmem))
    have hsettleOld : ∀ a ∈ approveesOf tx, s.visited a ≠ none →
        ∃ e ∈ s.trace, settlesB tSEP a e = true := by
      intro a ha hv
      cases hva : s.visited a with
      | none => exact absurd hva hv
      | some b =>
        cases b with
        | false => exact hInv.falseSettled a hva
        | true =>
          rcases hInv.trueLoc a hva with hL | hR
          · exact absurd hL (hnotInStack a ha)
          · exact ⟨Event.consumeCall a, hR, by simp [settlesB]⟩
    have hTrueCase : ∀ a, a ≠ h → v2 a = some true →
        s.visited a = some true := by
      intro a hah ha
      by_cases hva : v2 a = s.visited a
      · rw [← hva]; exact ha
      · obtain ⟨-, hfalse, -, -⟩ := cnew a hah hva
        rw [hfalse] at ha
        cases ha
    have hFalseCase : ∀ a, a ≠ h → v2 a = some false →
        s.visited a = some false ∨ (tSEP = false ∧ Event.sepCall a ∈ mid) := by
      intro a hah ha
      by_cases hva : v2 a = s.visited a
      · exact Or.inl (by rw [← hva]; exact ha)
      · obtain ⟨-, -, htS, hsep⟩ := cnew a hah hva
        exact Or.inr ⟨htS, hsep⟩
    rcases cdisj with ⟨hst, hncons, hv2h, hDv⟩ |
      ⟨a0, hst, ha0, hv2h, hncons⟩ |
      ⟨hst, hv2h, ⟨d1, hd1, hnc1⟩, hfin⟩
    · -- the front element is dropped as excluded
      refine ⟨?_, ?_, ?_, ?_, ?_, ?_⟩
      · show TraceSafe store tSEP
          (s.trace ++ Event.resolveTx h :: mid ++ [Event.releaseTx h fR])
        rw [List.append_assoc]
        exact traceSafe_append_no_consume hInv.safe (consume_notin_block hncons)
      · intro x hx
        have hx2 : x ∈ stack2.drop 1 := hx
        rw [hst] at hx2
        have hxr : x ∈ rest := List.mem_of_mem_drop hx2
        have hxt := htail x hxr
        show v2 x = some true
        by_cases hxh : x = h
        · subst hxh
          rcases hDv with hD | hD
          · rw [hD] at hxt; cases hxt
          · rw [hD.1] at hxt; cases hxt
        · exact cmono x true hxh hxt
      · intro a ha
        have ha2 : v2 a = some true := ha
        by_cases hah : a = h
        · subst hah
          rw [hv2h] at ha2
          cases ha2
        · have hvt := hTrueCase a hah ha2
          rcases hInv.trueLoc a hvt with hL | hR
          · rw [hstack] at hL
            rcases List.mem_cons.mp hL with hL | hL
            · exact absurd hL hah
            · exact Or.inl (show a ∈ stack2 from hst ▸ hL)
          · exact Or.inr (hmemTr _ hR)
      · show StackChain store stack2
        rw [hst]
        exact stackChain_tail hchainRest
      · intro a ha
        have ha2 : v2 a = some false := ha
        by_cases hah : a = h
        · subst hah
          rcases hDv with hD | hD
          · obtain ⟨e, he, hs⟩ := hInv.falseSettled a hD
            exact ⟨e, hmemTr _ he, hs⟩
          · exact ⟨Event.condCall a (some false), hmemMid _ hD.2, by simp [settlesB]⟩
        · rcases hFalseCase a hah ha2 with hF | ⟨htS, hsep⟩
          · obtain ⟨e, he, hs⟩ := hInv.falseSettled a hF
            exact ⟨e, hmemTr _ he, hs⟩
          · subst htS
            exact ⟨Event.sepCall a, hmemMid _ hsep, by simp [settlesB]⟩
      · intro a ha
        have ha2 : v2 a = some true := ha
        by_cases hah : a = h
        · subst hah
          rw [hv2h] at ha2
          cases ha2
        · exact hInv.trueRes a (hTrueCase a hah ha2)
    · -- one approvee of the front element is pushed
      refine ⟨?_, ?_, ?_, ?_, ?_, ?_⟩
      · show TraceSafe store tSEP
          (s.trace ++ Event.resolveTx h :: mid ++ [Event.releaseTx h fR])
        rw [List.append_assoc]
        exact traceSafe_append_no_consume hInv.safe (consume_notin_block hncons)
      · intro x hx
        have hx2 : x ∈ stack2.drop 1 := hx
        rw [hst] at hx2
        have hxr : x ∈ h :: rest := List.mem_of_mem_drop hx2
        show v2 x = some true
        by_cases hxh : x = h
        · subst hxh
          exact hv2h
        · rcases List.mem_cons.mp hxr with hxr | hxr
          · exact absurd hxr hxh
          · exact cmono x true hxh (htail x hxr)
      · intro a ha
        have ha2 : v2 a = some true := ha
        by_cases hah : a = h
        · subst hah
          refine Or.inl (show a ∈ stack2 from ?_)
          rw [hst]
          exact List.mem_cons_of_mem _ (List.mem_cons_self _ _)
        · have hvt := hTrueCase a hah ha2
          rcases hInv.trueLoc a hvt with hL | hR
          · rw [hstack] at hL
            refine Or.inl (show a ∈ stack2 from ?_)
            rw [hst]
            exact List.mem_cons_of_mem _ hL
          · exact Or.inr (hmemTr _ hR)
      · show StackChain store stack2
        rw [hst]
        exact ⟨hedge a0 ha0, hchainRest⟩
      · intro a ha
        have ha2 : v2 a = some false := ha
        by_cases hah : a = h
        · subst hah
          rw [hv2h] at ha2
          cases ha2
        · rcases hFalseCase a hah ha2 with hF | ⟨htS, hsep⟩
          · obtain ⟨e, he, hs⟩ := hInv.falseSettled a hF
            exact ⟨e, hmemTr _ he, hs⟩
          · subst htS
            exact ⟨Event.sepCall a, hmemMid _ hsep, by simp [settlesB]⟩
      · intro a ha
        have ha2 : v2 a = some true := ha
        by_cases hah : a = h
        · subst hah
          exact ⟨tx, hres⟩
        · exact hInv.trueRes a (hTrueCase a hah ha2)
    · -- the front element is consumed
      have hsettleNew : ∀ tx2, store.resolve h = some tx2 →
          ∀ a ∈ approveesOf tx2,
          ∃ e ∈ s.trace ++ (Event.resolveTx h :: d1 ++ [Event.retainTx h]),
            settlesB tSEP a e = true := by
        intro tx2 htx2 a ha
        rw [hres] at htx2
        rw [Option.some.injEq] at htx2
        subst htx2
        have hah : a ≠ h := by
          intro hae
          exact hacyc h (Relation.TransGen.single (hedge h (hae ▸ ha)))
        by_cases hva : s.visited a = none
        · have hv2a : v2 a ≠ none := hfin a ha
          have hne : v2 a ≠ s.visited a := by rw [hva]; exact hv2a
          obtain ⟨-, -, htS, hsep⟩ := cnew a hah hne
          subst htS
          rw [hd1] at hsep
          rw [List.mem_append] at hsep
          rcases hsep with hsep | hsep
          · exact ⟨Event.sepCall a, List.mem_append_right _
              (List.mem_append_left _ (List.mem_cons_of_mem _ hsep)),
              by simp [settlesB]⟩
          · simp [List.mem_cons] at hsep
        · obtain ⟨e, he, hs⟩ := hsettleOld a ha hva
          exact ⟨e, List.mem_append_left _ he, hs⟩
      refine ⟨?_, ?_, ?_, ?_, ?_, ?_⟩
      · show TraceSafe store tSEP
          (s.trace ++ Event.resolveTx h :: mid ++ [Event.releaseTx h fR])
        have hshape : s.trace ++ Event.resolveTx h :: mid ++ [Event.releaseTx h fR] =
            s.trace ++ ((Event.resolveTx h :: d1 ++ [Event.retainTx h]) ++
              Event.consumeCall h :: [Event.releaseTx h fR]) := by
          rw [hd1]
          simp
        rw [hshape]
        refine traceSafe_append_one_consume hInv.safe ?_ ?_ hsettleNew
        · intro h2 hmem
          rw [List.mem_append, List.mem_cons] at hmem
          rcases hmem with (hmem | hmem) | hmem
          · cases hmem
          · exact hnc1 h2 hmem
          · rw [List.mem_singleton] at hmem
            cases hmem
        · intro h2 hmem
          simp at hmem
      · intro x hx
        have hx2 : x ∈ stack2.drop 1 := hx
        rw [hst] at hx2
        have hxr : x ∈ rest := List.mem_of_mem_drop hx2
        show v2 x = some true
        by_cases hxh : x = h
        · subst hxh
          exact hv2h
        · exact cmono x true hxh (htail x hxr)
      · intro a ha
        have ha2 : v2 a = some true := ha
        by_cases hah : a = h
        · subst hah
          refine Or.inr (hmemMid _ ?_)
          rw [hd1]
          exact List.mem_append_right _ (by simp)
        · have hvt := hTrueCase a hah ha2
          rcases hInv.trueLoc a hvt with hL | hR
          · rw [hstack] at hL
            rcases List.mem_cons.mp hL with hL | hL
            · exact absurd hL hah
            · exact Or.inl (show a ∈ stack2 from hst ▸ hL)
          · exact Or.inr (hmemTr _ hR)
      · show StackChain store stack2
        rw [hst]
        exact stackChain_tail hchainRest
      · intro a ha
        have ha2 : v2 a = some false := ha
        by_cases hah : a = h
        · subst hah
          rw [hv2h] at ha2
          cases ha2
        · rcases hFalseCase a hah ha2 with hF | ⟨htS, hsep⟩
          · obtain ⟨e, he, hs⟩ := hInv.falseSettled a hF
            exact ⟨e, hmemTr _ he, hs⟩
          · subst htS
            exact ⟨Event.sepCall a, hmemMid _ hsep, by simp [settlesB]⟩
      · intro a ha
        have ha2 : v2 a = some true := ha
        by_cases hah : a = h
        · subst hah
          exact ⟨tx, hres⟩
        · exact hInv.trueRes a (hTrueCase a hah ha2)

theorem runApprovees_consInv {σ ε : Type} {store : TxStore} {cb : ApproveeCallbacks σ ε}
    {fR tSEP : Bool} {sig : Nat → Bool} (hacyc : Acyclic store) :
    ∀ (fuel i : Nat) (s : ApproveeState σ) (st : ApproveeState σ),
      ConsInv store tSEP s →
      runApprovees store cb fR tSEP sig fuel i s =
        some ((st, none) : ApproveeState σ × Option (TravError ε)) →
      ConsInv store tSEP st := by
  intro fuel
  induction fuel with
  | zero =>
    intro i s st hInv hrun
    rw [runApprovees] at hrun
    split at hrun
    · simp only [Option.some.injEq, Prod.mk.injEq] at hrun
      obtain ⟨rfl, -⟩ := hrun
      exact hInv
    · cases hrun
  | succ fuel ih =>
    intro i s st hInv hrun
    rw [runApprovees] at hrun
    split at hrun
    · simp only [Option.some.injEq, Prod.mk.injEq] at hrun
      obtain ⟨rfl, -⟩ := hrun
      exact hInv
    · rcases hstep : processStackApprovees store cb fR tSEP (sig i) s with ⟨s2, res2⟩
      rw [hstep] at hrun
      cases res2 with
      | some e =>
        simp only [Option.some.injEq, Prod.mk.injEq] at hrun
        obtain ⟨-, habs⟩ := hrun
        cases habs
      | none =>
        exact ih (i + 1) s2 st (processStackApprovees_consInv hacyc hInv hstep) hrun

/-- Claim C1: on every finite acyclic graph, any `TraverseApprovees` call
that returns without error satisfies finalize-on-pop: whenever the
consumer fires on a node (a `consumeCall` at position `i` of the trace),
each of that node's approvees (trunk, and branch when distinct) was
settled strictly earlier — already consumed, reported missing, excluded
by the predicate, or recognized as a solid entry point while boundary
nodes are not traversed. -/
theorem traverseApprovees_consume_after_approvees {σ ε : Type} {store : TxStore}
    {cb : ApproveeCallbacks σ ε} {fR tSEP : Bool} {sig : Nat → Bool} {fuel start : Nat}
    {u0 : σ} {st : ApproveeState σ} (hacyc : Acyclic store)
    (hrun : TraverseApprovees store cb fR tSEP sig fuel start u0 =
      some ((st, none) : ApproveeState σ × Option (TravError ε))) :
    TraceSafe store tSEP st.trace := by
  have hInv0 : ConsInv store tSEP (mkInitApprovees start u0) := by
    refine ⟨?_, ?_, ?_, ?_, ?_, ?_⟩
    · intro i h hget
      simp [mkInitApprovees] at hget
    · intro x hx
      simp [mkInitApprovees] at hx
    · intro a ha
      simp [mkInitApprovees] at ha
    · show StackChain store [start]
      trivial
    · intro a ha
      simp [mkInitApprovees] at ha
    · intro a ha
      simp [mkInitApprovees] at ha
  exact (runApprovees_consInv hacyc fuel 0 (mkInitApprovees start u0) st hInv0 hrun).safe

/-- The chain store is acyclic: the rank `5 ↦ 0, x ↦ x + 1` strictly
decreases along every approvee edge. -/
theorem chainStore_acyclic : Acyclic chainStore := by
  refine acyclic_of_rank chainStore (fun x => if x = 5 then 0 else x + 1) ?_
  intro x y hxy
  obtain ⟨tx, hres, hmem⟩ := hxy
  by_cases h2 : x = 2
  · subst h2
    have hres2 : some ({ txHash := 2, trunk := 1, branch := 1, isTail := false } : Tx) =
        some tx := hres
    rw [Option.some.injEq] at hres2
    subst hres2
    have hy : y = 1 := by simpa [approveesOf] using hmem
    subst hy
    decide
  · by_cases h1 : x = 1
    · subst h1
      have hres2 : some ({ txHash := 1, trunk := 0, branch := 0, isTail := false } : Tx) =
          some tx := hres
      rw [Option.some.injEq] at hres2
      subst hres2
      have hy : y = 0 := by simpa [approveesOf] using hmem
      subst hy
      decide
    · by_cases h0 : x = 0
      · subst h0
        have hres2 : some ({ txHash := 0, trunk := 5, branch := 5, isTail := true } : Tx) =
            some tx := hres
        rw [Option.some.injEq] at hres2
        subst hres2
        have hy : y = 5 := by simpa [approveesOf] using hmem
        subst hy
        decide
      · simp only [chainStore, if_neg h2, if_neg h1, if_neg h0] at hres
        cases hres

/-- Witness for claim C1: the chain store is acyclic, the concrete run
returns without error, and its trace satisfies finalize-on-pop. -/
theorem traverseApprovees_consume_after_approvees_witness :
    Acyclic chainStore ∧
    TraverseApprovees chainStore trivialApproveeCb true false (fun _ => false) 10 2 () =
      some (chainStApprovees, none) ∧
    TraceSafe chainStore false chainStApprovees.trace :=
  ⟨chainStore_acyclic, rfl,
    traverseApprovees_consume_after_approvees chainStore_acyclic (show
      TraverseApprovees chainStore trivialApproveeCb true false (fun _ => false)
        10 2 () = some (chainStApprovees, none) from rfl)⟩
